import Mathlib

/-!
# SysProgLab3: a lexical scanner for a C-family language

A shallow embedding of `src/main.cpp`: the token data model, the three
vocabulary tables, the five `std::regex` patterns with a whole-string matcher,
the character-by-character scanning loop of `tokenize`, and its second pass that
assigns the final category of every token.

Conventions of the embedding.

* A `std::string` is a list of characters; `Token.value` is a `String`.
* The `for` loop over the index `i` is a recursion over the not yet visited
  suffix `code[i..]`; `code[i + 1]` is the head of what follows the current
  character, and `++i` inside the body drops one more character.
* `std::regex_match` is whole-string membership in the language of the pattern.
* `t.value.front()` on an empty string is undefined behaviour; the classifier
  returns `none` there.
-/

namespace SysProgLab3

/-! ## Data model -/

/-- The enumeration `TokenType` of `main.cpp`. -/
inductive TokenType
  | DELIMITER
  | PREPROCESSOR_DIRECTIVE
  | KEYWORD
  | IDENTIFIER
  | NUMERIC_CONSTANT
  | HEXADECIMAL_NUMBER
  | DECIMAL_NUMBER
  | STRING_CONSTANT
  | OPERATOR
  | COMMENT
  | UNKNOWN
  deriving DecidableEq, Repr

/-- The struct `Token` of `main.cpp`. -/
structure Token where
  value : String
  type : TokenType
  deriving DecidableEq, Repr

/-! ## Character classes of `<cctype>` in the "C" locale -/

/-- The function `isspace`: space, `\t`, `\n`, `\v`, `\f`, `\r`. -/
def isspace (c : Char) : Bool :=
  c.toNat == 32 || (9 ≤ c.toNat && c.toNat ≤ 13)

/-- The function `ispunct`: the printable ASCII characters that are neither
alphanumeric nor the space. -/
def ispunct (c : Char) : Bool :=
  (33 ≤ c.toNat && c.toNat ≤ 47) || (58 ≤ c.toNat && c.toNat ≤ 64) ||
  (91 ≤ c.toNat && c.toNat ≤ 96) || (123 ≤ c.toNat && c.toNat ≤ 126)

/-! ## Regular expressions and whole-string matching -/

/-- Abstract syntax of the patterns handed to `std::regex`; an atom is a
character class given by its membership test. -/
inductive Regex
  | nothing
  | empty
  | cls (p : Char → Bool)
  | alt (a b : Regex)
  | seq (a b : Regex)
  | star (a : Regex)

namespace Regex

/-- Does the pattern accept the empty string? -/
def nullable : Regex → Bool
  | nothing => false
  | empty => true
  | cls _ => false
  | alt a b => nullable a || nullable b
  | seq a b => nullable a && nullable b
  | star _ => true

/-- Brzozowski derivative: the pattern for what may follow the character `c`. -/
def deriv (c : Char) : Regex → Regex
  | nothing => nothing
  | empty => nothing
  | cls p => if p c then empty else nothing
  | alt a b => alt (deriv c a) (deriv c b)
  | seq a b => if nullable a then alt (seq (deriv c a) b) (deriv c b) else seq (deriv c a) b
  | star a => seq (deriv c a) (star a)

/-- The pattern `a+`. -/
def plus (a : Regex) : Regex := seq a (star a)

/-- The pattern that matches exactly the character `c`. -/
def chr (c : Char) : Regex := cls (fun d => d == c)

end Regex

/-- The call `std::regex_match(token, r)`: the whole of `token` must match. -/
def regex_match : List Char → Regex → Bool
  | [], r => r.nullable
  | c :: cs, r => regex_match cs (r.deriv c)

/-- The bracket range `lo-hi`. -/
def inRange (lo hi : Char) (c : Char) : Bool :=
  lo.toNat ≤ c.toNat && c.toNat ≤ hi.toNat

/-- The class `[0-9]`, which is also `\d` in the "C" locale. -/
def digitClass (c : Char) : Bool := inRange '0' '9' c

/-- The class `[_a-zA-Z]`. -/
def identStartClass (c : Char) : Bool :=
  c == '_' || inRange 'a' 'z' c || inRange 'A' 'Z' c

/-- The class `[_a-zA-Z0-9]`. -/
def identRestClass (c : Char) : Bool :=
  c == '_' || inRange 'a' 'z' c || inRange 'A' 'Z' c || inRange '0' '9' c

/-- The class `[0-9a-fA-F]`. -/
def hexClass (c : Char) : Bool :=
  inRange '0' '9' c || inRange 'a' 'f' c || inRange 'A' 'F' c

/-- The class `[xX]`. -/
def xClass (c : Char) : Bool := c == 'x' || c == 'X'

/-- The class `[^"\\]`. -/
def strCharClass (c : Char) : Bool := !(c == '"' || c == '\\')

/-- The ECMAScript wildcard `.`: any character but a line terminator. -/
def anyClass (c : Char) : Bool := !(c == '\n' || c == '\r')

open Regex in
/-- The pattern `[_a-zA-Z][_a-zA-Z0-9]*` of `isIdentifier`. -/
def identifierRegex : Regex :=
  seq (cls identStartClass) (star (cls identRestClass))

open Regex in
/-- The pattern `"([^"\\]|\\.)*"` of `isStringConstant`. -/
def stringRegex : Regex :=
  seq (chr '"') (seq (star (alt (cls strCharClass) (seq (chr '\\') (cls anyClass)))) (chr '"'))

open Regex in
/-- The pattern `^\d*\.\d+|\d+\.$` of `isDecimalNumber`. In a whole-string match
the anchor `^` opening an alternative and the anchor `$` closing one hold
exactly when that alternative spans the string, so they add no constraint. -/
def decimalPattern : Regex :=
  alt (seq (star (cls digitClass)) (seq (chr '.') (plus (cls digitClass))))
      (seq (plus (cls digitClass)) (chr '.'))

open Regex in
/-- The pattern `^0[xX][0-9a-fA-F]+$` of `isHexadecimalNumber` (anchors as in
`decimalPattern`). -/
def hexPattern : Regex :=
  seq (chr '0') (seq (cls xClass) (plus (cls hexClass)))

open Regex in
/-- The pattern `([0-9]*\.[0-9]+|[0-9]+)` of `isNumericConstant`. -/
def numericRegex : Regex :=
  alt (seq (star (cls digitClass)) (seq (chr '.') (plus (cls digitClass))))
      (plus (cls digitClass))

/-- The predicate `isIdentifier`. -/
def isIdentifier (token : String) : Bool := regex_match token.data identifierRegex

/-- The predicate `isStringConstant`. -/
def isStringConstant (token : String) : Bool := regex_match token.data stringRegex

/-- The predicate `isDecimalNumber`. -/
def isDecimalNumber (token : String) : Bool := regex_match token.data decimalPattern

/-- The predicate `isHexadecimalNumber`. -/
def isHexadecimalNumber (token : String) : Bool := regex_match token.data hexPattern

/-- The predicate `isNumericConstant`. -/
def isNumericConstant (token : String) : Bool := regex_match token.data numericRegex

/-! ## Vocabulary tables -/

/-- The loop `while (ss >> word)` over an `istringstream`: the maximal runs of
non-whitespace characters, in order. `cur` is the run being read. -/
def readWords : List Char → List Char → List String
  | [], cur => if cur.isEmpty then [] else [String.mk cur]
  | c :: cs, cur =>
    if isspace c then
      if cur.isEmpty then readWords cs [] else String.mk cur :: readWords cs []
    else readWords cs (cur ++ [c])

/-- The literal `keywordString` of `initializeKeywordSet`. -/
def keywordString : String :=
  "catch ref do struct goto bool extern implicit byte switch in out lock sbyte sealed true string foreach try this throw ulong short volatile default object params namespace uint event base break override false using float for char private continue explicit interface virtual sizeof static new double long unchecked case const finally abstract protected while true operator if class readonly int enum public checked decimal true"

/-- The literal `operatorString` of `initializeOperatorSet`. -/
def operatorString : String :=
  "+ - % & * / | ^ ! ~ -- ++ << >> == != > < <= >= || && ?? ?: => = += -= *= /= %= &= |= ^= <<= >>= [] () . ->"

/-- The literal `delimiterStr` of `initializeDelimiterSet`. -/
def delimiterStr : String := "; , { } ( ) [ ] : ?"

/-- The set `keywords` after `initializeKeywordSet` (membership only). -/
def keywords : List String := readWords keywordString.data []

/-- The set `operators` after `initializeOperatorSet`. -/
def operators : List String := readWords operatorString.data []

/-- The set `delimiters` after `initializeDelimiterSet`. -/
def delimiters : List String := readWords delimiterStr.data []

/-- The predicate `isKeyword`. -/
def isKeyword (token : String) : Bool := keywords.contains token

/-! ## The scanning loop of `tokenize` -/

/-- The local variables of `tokenize` that the loop updates. -/
structure ScanState where
  tokens : List Token
  token : List Char
  inString : Bool
  inSingleLineComment : Bool
  inMultiLineComment : Bool
  deriving DecidableEq, Repr

/-- The locals as declared before the loop. -/
def ScanState.init : ScanState :=
  { tokens := [], token := [], inString := false,
    inSingleLineComment := false, inMultiLineComment := false }

/-- The statement `tokens.push_back({ token, ty }); token.clear();`. -/
def ScanState.emit (st : ScanState) (ty : TokenType) : ScanState :=
  { st with tokens := st.tokens ++ [⟨String.mk st.token, ty⟩], token := [] }

/-- The statement `if (!token.empty()) { tokens.push_back({ token, UNKNOWN }); token.clear(); }`. -/
def ScanState.flush (st : ScanState) : ScanState :=
  if st.token.isEmpty then st else st.emit .UNKNOWN

/-- Lines 104-109: a `/` outside a string and outside a multi-line comment looks
at the next character and may raise one of the comment flags. -/
def commentStart (st : ScanState) (c : Char) (rest : List Char) : ScanState :=
  if c == '/' && !st.inString && !st.inMultiLineComment then
    match rest with
    | [] => st
    | n :: _ =>
      if n == '/' then { st with inSingleLineComment := true }
      else if n == '*' then { st with inMultiLineComment := true }
      else st
  else st

/-- Lines 111-115: a newline inside a single-line comment emits the comment. -/
def singleLineEnd (st : ScanState) (c : Char) : ScanState :=
  if st.inSingleLineComment && c == '\n' then
    { st with inSingleLineComment := false }.emit .COMMENT
  else st

/-- Lines 131-158: the handling of a character outside comments. -/
def plainChar (st : ScanState) (c : Char) : ScanState :=
  if c == '"' then
    if st.inString then
      { ({ st with token := st.token ++ [c] }.emit .STRING_CONSTANT) with inString := false }
    else
      { st.flush with inString := true }
  else if st.inString then
    { st with token := st.token ++ [c] }
  else if isspace c then
    st.flush
  else if ispunct c then
    let st1 := st.flush
    { st1 with tokens := st1.tokens ++ [⟨String.mk [c], .UNKNOWN⟩] }
  else
    { st with token := st.token ++ [c] }

/-- One iteration of the loop body at the character `c`, with `rest` the
characters after it: the state after the iteration and the characters still to
be visited. -/
def scanStep (st : ScanState) (c : Char) (rest : List Char) : ScanState × List Char :=
  if c == '#' && !st.inString && !st.inSingleLineComment && !st.inMultiLineComment then
    -- lines 94-102: the directive takes every character up to the next whitespace
    ({ st with token := st.token ++ c :: rest.takeWhile (fun d => !isspace d) }.emit
        .PREPROCESSOR_DIRECTIVE,
      rest.dropWhile (fun d => !isspace d))
  else
    let st1 := commentStart st c rest
    let st2 := singleLineEnd st1 c
    if st2.inMultiLineComment && c == '*' && rest.head? == some '/' then
      -- lines 117-124
      ({ ({ st2 with token := st2.token ++ ['*', '/'] }.emit .COMMENT) with
          inMultiLineComment := false },
        rest.tail)
    else if st2.inSingleLineComment || st2.inMultiLineComment then
      -- lines 126-129
      ({ st2 with token := st2.token ++ [c] }, rest)
    else
      (plainChar st2 c, rest)

/-- The loop `for (size_t i = 0; i < code.length(); ++i)`. Every iteration
visits at least one character, so `fuel` bounds the number of iterations. -/
def scanLoop : Nat → ScanState → List Char → ScanState
  | 0, st, _ => st
  | _ + 1, st, [] => st
  | fuel + 1, st, c :: rest => scanLoop fuel (scanStep st c rest).1 (scanStep st c rest).2

/-- The scanner: the loop followed by the flush of lines 162-164; the provisional
token sequence before classification. -/
def scan (code : List Char) : List Token :=
  (scanLoop code.length ScanState.init code).flush.tokens

/-! ## The classification pass of `tokenize` -/

/-- The `if`/`else if` chain of lines 167-175 applied to one token. The last
test reads `t.value.front()`, which is undefined on an empty string. -/
def classify (t : Token) : Option Token :=
  if isKeyword t.value then some { t with type := .KEYWORD }
  else if isHexadecimalNumber t.value then some { t with type := .HEXADECIMAL_NUMBER }
  else if isIdentifier t.value then some { t with type := .IDENTIFIER }
  else if isNumericConstant t.value then some { t with type := .NUMERIC_CONSTANT }
  else if isStringConstant t.value then some { t with type := .STRING_CONSTANT }
  else if isDecimalNumber t.value then some { t with type := .DECIMAL_NUMBER }
  else if delimiters.contains t.value then some { t with type := .DELIMITER }
  else if operators.contains t.value then some { t with type := .OPERATOR }
  else
    match t.value.data with
    | [] => none
    | c :: _ => if c == '#' then some { t with type := .PREPROCESSOR_DIRECTIVE } else some t

/-- The loop `for (Token& t : tokens)` of lines 166-176. -/
def classifyAll : List Token → Option (List Token)
  | [] => some []
  | t :: ts =>
    match classify t with
    | none => none
    | some t1 =>
      match classifyAll ts with
      | none => none
      | some ts1 => some (t1 :: ts1)

/-- The function `tokenize`; `none` when the classification pass reads the
first character of an empty token value. -/
def tokenize (code : String) : Option (List Token) :=
  classifyAll (scan code.data)

/-! ## Specification vocabulary -/

/-- Denotation of a pattern: the strings it matches. The pieces of a starred
pattern are taken non-empty. -/
def Regex.Matches : Regex → List Char → Prop
  | .nothing, _ => False
  | .empty, w => w = []
  | .cls p, w => ∃ c, w = [c] ∧ p c = true
  | .alt a b, w => a.Matches w ∨ b.Matches w
  | .seq a b, w => ∃ u v, w = u ++ v ∧ a.Matches u ∧ b.Matches v
  | .star a, w => ∃ ws : List (List Char), w = ws.flatten ∧ ∀ u ∈ ws, u ≠ [] ∧ a.Matches u

/-- The strings `digits* '.' digits+`. -/
def IsFraction (w : List Char) : Prop :=
  ∃ a b, w = a ++ '.' :: b ∧ (∀ c ∈ a, digitClass c = true) ∧ b ≠ [] ∧ ∀ c ∈ b, digitClass c = true

/-- The strings `digits+`. -/
def IsDigits (w : List Char) : Prop := w ≠ [] ∧ ∀ c ∈ w, digitClass c = true

/-- The strings `digits+ '.'`. -/
def IsTrailingDot (w : List Char) : Prop :=
  ∃ a, w = a ++ ['.'] ∧ a ≠ [] ∧ ∀ c ∈ a, digitClass c = true

/-- The loop run from an arbitrary state over the characters still to visit. -/
def scanRun (st : ScanState) (rest : List Char) : ScanState :=
  scanLoop rest.length st rest

/-- A state outside strings and comments. -/
def ScanState.Normal (st : ScanState) : Prop :=
  st.inString = false ∧ st.inSingleLineComment = false ∧ st.inMultiLineComment = false

/-- The strings made of digits and dots, at least one character long. -/
def IsNumberLike (w : List Char) : Prop :=
  w ≠ [] ∧ ∀ c ∈ w, digitClass c = true ∨ c = '.'

/-- The input splits as `g0 ++ v1 ++ g1 ++ ... ++ vn ++ gn`, where `v1 .. vn`
are the given values in order and every gap `gi` is made of characters that
satisfy `gap`. -/
def SplitsWith (gap : Char → Bool) : List Char → List String → Prop
  | input, [] => ∀ c ∈ input, gap c = true
  | input, v :: vs =>
    ∃ g rest, input = g ++ v.data ++ rest ∧ (∀ c ∈ g, gap c = true) ∧ SplitsWith gap rest vs

/-- A state inside a string and outside comments. -/
def ScanState.InString (st : ScanState) : Prop :=
  st.inString = true ∧ st.inSingleLineComment = false ∧ st.inMultiLineComment = false

/-- A state inside a single-line comment only. -/
def ScanState.InSingle (st : ScanState) : Prop :=
  st.inString = false ∧ st.inSingleLineComment = true ∧ st.inMultiLineComment = false

/-- A state inside a multi-line comment only. -/
def ScanState.InMulti (st : ScanState) : Prop :=
  st.inString = false ∧ st.inSingleLineComment = false ∧ st.inMultiLineComment = true

/-- No `/` of the text is directly followed by `*`. -/
def noSlashStar : List Char → Bool
  | [] => true
  | [_] => true
  | c :: d :: cs => !(c == '/' && d == '*') && noSlashStar (d :: cs)

/-- No `*` of the text is directly followed by `/`. -/
def noStarSlash : List Char → Bool
  | [] => true
  | [_] => true
  | c :: d :: cs => !(c == '*' && d == '/') && noStarSlash (d :: cs)

/-- The texts made of characters that are neither whitespace nor punctuation. -/
def Ordinary (w : List Char) : Prop :=
  ∀ c ∈ w, isspace c = false ∧ ispunct c = false

/-- The two comment flags are not both set. -/
def flagsExclusive (st : ScanState) : Bool :=
  !(st.inSingleLineComment && st.inMultiLineComment)

/-- No iteration of the loop run from `st` starts with both comment flags set,
and neither does the state the loop ends in. -/
def scanExclusive : Nat → ScanState → List Char → Bool
  | 0, st, _ => flagsExclusive st
  | _ + 1, st, [] => flagsExclusive st
  | fuel + 1, st, c :: rest =>
    flagsExclusive st && scanExclusive fuel (scanStep st c rest).1 (scanStep st c rest).2

/-- Every token has a non-empty value, and those of category `COMMENT` or
`PREPROCESSOR_DIRECTIVE` are left as they are by the classification chain. -/
def TokensOk (ts : List Token) : Prop :=
  ∀ t ∈ ts, t.value.data ≠ [] ∧
    ((t.type = .COMMENT ∨ t.type = .PREPROCESSOR_DIRECTIVE) → classify t = some t)

/-- The invariant of the scanning loop while the comment flags stay exclusive;
`rest` is what is still to be visited. -/
structure ScanInv (st : ScanState) (rest : List Char) : Prop where
  tokens_ok : TokensOk st.tokens
  string_excl : st.inString = true →
    st.inSingleLineComment = false ∧ st.inMultiLineComment = false
  normal_tok : st.Normal → Ordinary st.token
  single_tok : st.InSingle → ∃ p, Ordinary p ∧
    ((st.token = p ++ ['/'] ∧ rest.head? = some '/') ∨ ∃ s, st.token = p ++ '/' :: '/' :: s)
  multi_tok : st.InMulti → ∃ p q, Ordinary p ∧ st.token = p ++ '/' :: q

/-- The class of ASCII letters and digits. -/
def alnumClass (c : Char) : Bool :=
  inRange '0' '9' c || inRange 'a' 'z' c || inRange 'A' 'Z' c

/-- The state `st` with the tokens `ts` put before its own. -/
def ScanState.prepend (ts : List Token) (st : ScanState) : ScanState :=
  { st with tokens := ts ++ st.tokens }

/-- A token with a non-empty value that, if it holds a punctuation character,
is one character long. -/
def PunctAlone (t : Token) : Prop :=
  t.value.data ≠ [] ∧ ((∃ c ∈ t.value.data, ispunct c = true) → t.value.length = 1)

/-- The characters the scanner may leave out of every token: whitespace and the
double quote. -/
def gapChar (c : Char) : Bool := isspace c || c == '"'

/-- The text `x` splits as `g0 ++ v1 ++ g1 ++ ... ++ vn ++ gn ++ y`, where
`v1 .. vn` are the given values in order and every gap `gi` is made of
characters that satisfy `gap`. -/
def SplitsTo (gap : Char → Bool) : List Char → List String → List Char → Prop
  | x, [], y => ∃ g, x = g ++ y ∧ ∀ c ∈ g, gap c = true
  | x, v :: vs, y =>
    ∃ g r, x = g ++ v.data ++ r ∧ (∀ c ∈ g, gap c = true) ∧ SplitsTo gap r vs y

/-- Some test of the classification chain holds of the value `v`: it is a
keyword, matches one of the five patterns, is a delimiter or an operator, or
begins with `#`. -/
def ruleMatches (v : String) : Bool :=
  isKeyword v || isHexadecimalNumber v || isIdentifier v || isNumericConstant v ||
    isStringConstant v || isDecimalNumber v || delimiters.contains v ||
    operators.contains v || v.data.head? == some '#'

/-- The string flag is not set together with a comment flag. -/
def StringAlone (st : ScanState) : Prop :=
  st.inString = true → st.inSingleLineComment = false ∧ st.inMultiLineComment = false

/-! ## The matcher decides the denotation -/

theorem Regex.nullable_iff (r : Regex) : r.nullable = true ↔ r.Matches [] := by
  induction r with
  | nothing => simp [Regex.nullable, Regex.Matches]
  | empty => simp [Regex.nullable, Regex.Matches]
  | cls p => simp [Regex.nullable, Regex.Matches]
  | alt a b iha ihb => simp [Regex.nullable, Regex.Matches, iha, ihb]
  | seq a b iha ihb =>
    simp only [Regex.nullable, Regex.Matches, Bool.and_eq_true, iha, ihb]
    constructor
    · rintro ⟨h1, h2⟩
      exact ⟨[], [], rfl, h1, h2⟩
    · rintro ⟨u, v, huv, h1, h2⟩
      have hu : u = [] := by
        cases u with
        | nil => rfl
        | cons x xs => simp at huv
      have hv : v = [] := by
        subst hu
        simpa using huv.symm
      subst hu hv
      exact ⟨h1, h2⟩
  | star a _ =>
    simp only [Regex.nullable, Regex.Matches, true_iff]
    exact ⟨[], rfl, by simp⟩

theorem Regex.deriv_iff (r : Regex) (c : Char) (w : List Char) :
    (r.deriv c).Matches w ↔ r.Matches (c :: w) := by
  induction r generalizing w with
  | nothing => simp [Regex.deriv, Regex.Matches]
  | empty => simp [Regex.deriv, Regex.Matches]
  | cls p =>
    by_cases hp : p c = true
    · simp only [Regex.deriv, Regex.Matches, hp, if_true]
      constructor
      · rintro rfl
        exact ⟨c, rfl, hp⟩
      · rintro ⟨d, hd, -⟩
        simp at hd
        exact hd.2
    · simp only [Regex.deriv, hp, Regex.Matches, Bool.false_eq_true, if_false, false_iff]
      rintro ⟨d, hd, hpd⟩
      simp at hd
      rw [← hd.1] at hpd
      exact hp hpd
  | alt a b iha ihb => simp [Regex.deriv, Regex.Matches, iha, ihb]
  | seq a b iha ihb =>
    have key : (∃ u v, w = u ++ v ∧ (a.deriv c).Matches u ∧ b.Matches v) ∨
        (a.Matches [] ∧ b.Matches (c :: w)) ↔ (Regex.seq a b).Matches (c :: w) := by
      constructor
      · rintro (⟨u, v, huv, h1, h2⟩ | ⟨h1, h2⟩)
        · exact ⟨c :: u, v, by simp [huv], (iha u).1 h1, h2⟩
        · exact ⟨[], c :: w, rfl, h1, h2⟩
      · rintro ⟨u, v, huv, h1, h2⟩
        cases u with
        | nil =>
          right
          simp at huv
          subst huv
          exact ⟨h1, h2⟩
        | cons x xs =>
          left
          simp at huv
          obtain ⟨hx, hw⟩ := huv
          subst hx
          exact ⟨xs, v, hw, (iha xs).2 h1, h2⟩
    by_cases hn : a.nullable = true
    · simp only [Regex.deriv, hn, if_true]
      rw [← key]
      simp only [Regex.Matches, ihb, ← Regex.nullable_iff, hn, true_and]
    · simp only [Regex.deriv, hn, Bool.false_eq_true, if_false]
      rw [← key]
      simp only [Regex.Matches, ← Regex.nullable_iff, hn, Bool.false_eq_true, false_and, or_false]
  | star a iha =>
    simp only [Regex.deriv]
    constructor
    · rintro ⟨u, v, huv, h1, ws, hv, hws⟩
      refine ⟨(c :: u) :: ws, by simp [huv, hv], ?_⟩
      intro x hx
      simp at hx
      rcases hx with hx | hx
      · subst hx
        exact ⟨by simp, (iha u).1 h1⟩
      · exact hws x hx
    · rintro ⟨ws, hw, hws⟩
      cases ws with
      | nil => simp at hw
      | cons x xs =>
        have hx := hws x (by simp)
        cases x with
        | nil => exact absurd rfl hx.1
        | cons y ys =>
          simp at hw
          obtain ⟨hy, hw⟩ := hw
          subst hy
          refine ⟨ys, xs.flatten, hw, (iha ys).2 hx.2, xs, rfl, ?_⟩
          intro u hu
          exact hws u (by simp [hu])

theorem regex_match_iff (w : List Char) (r : Regex) :
    regex_match w r = true ↔ r.Matches w := by
  induction w generalizing r with
  | nil => simpa [regex_match] using r.nullable_iff
  | cons c cs ih => simp [regex_match, ih, Regex.deriv_iff]

theorem Regex.seq_cls_iff (p : Char → Bool) (r : Regex) (w : List Char) :
    (Regex.seq (.cls p) r).Matches w ↔ ∃ c v, w = c :: v ∧ p c = true ∧ r.Matches v := by
  constructor
  · rintro ⟨u, v, huv, ⟨c, hu, hp⟩, hr⟩
    exact ⟨c, v, by simp [huv, hu], hp, hr⟩
  · rintro ⟨c, v, hw, hp, hr⟩
    exact ⟨[c], v, by simp [hw], ⟨c, rfl, hp⟩, hr⟩

theorem Regex.star_cls_iff (p : Char → Bool) (w : List Char) :
    (Regex.star (.cls p)).Matches w ↔ ∀ c ∈ w, p c = true := by
  induction w with
  | nil =>
    simp only [List.not_mem_nil, false_implies, implies_true, iff_true]
    exact ⟨[], rfl, by simp⟩
  | cons c cs ih =>
    rw [← Regex.deriv_iff]
    simp only [Regex.deriv, List.mem_cons, forall_eq_or_imp]
    by_cases hp : p c = true
    · simp only [hp, if_true, true_and, ← ih]
      constructor
      · rintro ⟨u, v, huv, hu, hv⟩
        simp only [Regex.Matches] at hu
        subst hu
        simpa [huv] using hv
      · intro h
        exact ⟨[], cs, rfl, rfl, h⟩
    · simp only [hp, Bool.false_eq_true, if_false, false_and, iff_false]
      rintro ⟨u, v, -, hu, -⟩
      exact hu

theorem Regex.plus_cls_iff (p : Char → Bool) (w : List Char) :
    (Regex.plus (.cls p)).Matches w ↔ w ≠ [] ∧ ∀ c ∈ w, p c = true := by
  unfold Regex.plus
  rw [Regex.seq_cls_iff]
  constructor
  · rintro ⟨c, v, hw, hp, hv⟩
    rw [Regex.star_cls_iff] at hv
    subst hw
    refine ⟨by simp, ?_⟩
    intro d hd
    simp at hd
    rcases hd with hd | hd
    · exact hd ▸ hp
    · exact hv d hd
  · rintro ⟨hne, hall⟩
    cases w with
    | nil => exact absurd rfl hne
    | cons c v =>
      refine ⟨c, v, rfl, hall c (by simp), ?_⟩
      rw [Regex.star_cls_iff]
      intro d hd
      exact hall d (by simp [hd])

/-! ## The languages of the five patterns -/

theorem fraction_matches_iff (w : List Char) :
    (Regex.seq (.star (.cls digitClass))
      (.seq (Regex.chr '.') (Regex.plus (.cls digitClass)))).Matches w ↔ IsFraction w := by
  constructor
  · rintro ⟨u, v, huv, hu, hv⟩
    rw [Regex.star_cls_iff] at hu
    unfold Regex.chr at hv
    rw [Regex.seq_cls_iff] at hv
    obtain ⟨c, b, hv, hc, hb⟩ := hv
    rw [Regex.plus_cls_iff] at hb
    simp only [beq_iff_eq] at hc
    subst hc hv
    exact ⟨u, b, huv, hu, hb.1, hb.2⟩
  · rintro ⟨a, b, hw, ha, hne, hb⟩
    refine ⟨a, '.' :: b, hw, (Regex.star_cls_iff _ _).2 ha, ?_⟩
    unfold Regex.chr
    rw [Regex.seq_cls_iff]
    exact ⟨'.', b, rfl, by simp, (Regex.plus_cls_iff _ _).2 ⟨hne, hb⟩⟩

theorem isNumericConstant_iff (v : String) :
    isNumericConstant v = true ↔ IsFraction v.data ∨ IsDigits v.data := by
  unfold isNumericConstant numericRegex
  rw [regex_match_iff]
  show (_ ∨ _) ↔ _
  rw [fraction_matches_iff, Regex.plus_cls_iff]
  rfl

theorem isDecimalNumber_iff (v : String) :
    isDecimalNumber v = true ↔ IsFraction v.data ∨ IsTrailingDot v.data := by
  unfold isDecimalNumber decimalPattern
  rw [regex_match_iff]
  show (_ ∨ _) ↔ _
  rw [fraction_matches_iff]
  apply or_congr Iff.rfl
  constructor
  · rintro ⟨u, w, huw, hu, hw⟩
    rw [Regex.plus_cls_iff] at hu
    obtain ⟨c, hc, hp⟩ := hw
    simp only [beq_iff_eq] at hp
    subst hp hc
    exact ⟨u, huw, hu.1, hu.2⟩
  · rintro ⟨a, hw, hne, ha⟩
    exact ⟨a, ['.'], hw, (Regex.plus_cls_iff _ _).2 ⟨hne, ha⟩, '.', rfl, by simp⟩

theorem isIdentifier_iff (v : String) :
    isIdentifier v = true ↔
      ∃ c cs, v.data = c :: cs ∧ identStartClass c = true ∧ ∀ d ∈ cs, identRestClass d = true := by
  unfold isIdentifier identifierRegex
  rw [regex_match_iff, Regex.seq_cls_iff]
  simp only [Regex.star_cls_iff]

theorem isHexadecimalNumber_iff (v : String) :
    isHexadecimalNumber v = true ↔
      ∃ x h, v.data = '0' :: x :: h ∧ xClass x = true ∧ h ≠ [] ∧ ∀ d ∈ h, hexClass d = true := by
  unfold isHexadecimalNumber hexPattern Regex.chr
  rw [regex_match_iff, Regex.seq_cls_iff]
  constructor
  · rintro ⟨c, w, hv, hc, hw⟩
    rw [Regex.seq_cls_iff] at hw
    obtain ⟨x, h, hw, hx, hh⟩ := hw
    rw [Regex.plus_cls_iff] at hh
    simp only [beq_iff_eq] at hc
    subst hc hw
    exact ⟨x, h, hv, hx, hh.1, hh.2⟩
  · rintro ⟨x, h, hv, hx, hne, hh⟩
    refine ⟨'0', x :: h, hv, by simp, ?_⟩
    rw [Regex.seq_cls_iff]
    exact ⟨x, h, rfl, hx, (Regex.plus_cls_iff _ _).2 ⟨hne, hh⟩⟩

theorem isStringConstant_head (v : String) (h : isStringConstant v = true) :
    v.data.head? = some '"' := by
  unfold isStringConstant stringRegex Regex.chr at h
  rw [regex_match_iff, Regex.seq_cls_iff] at h
  obtain ⟨c, w, hv, hc, -⟩ := h
  simp only [beq_iff_eq] at hc
  simp [hv, hc]

/-! ## The vocabulary tables -/

theorem keywords_lowercase :
    ∀ k ∈ keywords, (k.data.all (inRange 'a' 'z') && !k.data.isEmpty) = true := by
  decide

theorem isKeyword_data (v : String) (h : isKeyword v = true) :
    v.data ≠ [] ∧ ∀ c ∈ v.data, inRange 'a' 'z' c = true := by
  unfold isKeyword at h
  have hk := keywords_lowercase v (List.elem_iff.1 h)
  simp only [Bool.and_eq_true, List.all_eq_true, Bool.not_eq_true', List.isEmpty_eq_false] at hk
  exact ⟨hk.2, hk.1⟩

theorem delimiters_unmarked : ∀ d ∈ delimiters, '/' ∉ d.data ∧ '#' ∉ d.data := by
  decide

theorem operators_marked : ∀ o ∈ operators,
    '#' ∉ o.data ∧ ('/' ∈ o.data → o.data = ['/'] ∨ o.data = ['/', '=']) := by
  decide

theorem delimiters_punct :
    ∀ d ∈ delimiters, (d.data.all ispunct && !d.data.isEmpty) = true := by
  decide

theorem operators_punct :
    ∀ o ∈ operators, (o.data.all ispunct && !o.data.isEmpty) = true := by
  decide

/-- A value whose first character is not punctuation is neither a delimiter nor
an operator. -/
theorem not_vocabulary_of_head (v : String) (c : Char) (cs : List Char)
    (hv : v.data = c :: cs) (hc : ispunct c = false) : v ∉ delimiters ∧ v ∉ operators := by
  constructor
  · intro hd
    have h := delimiters_punct v hd
    simp only [hv, List.all_cons, Bool.and_eq_true] at h
    rw [hc] at h
    exact Bool.false_ne_true h.1.1
  · intro hd
    have h := operators_punct v hd
    simp only [hv, List.all_cons, Bool.and_eq_true] at h
    rw [hc] at h
    exact Bool.false_ne_true h.1.1

theorem vocabulary_no_quote :
    (∀ d ∈ delimiters, '"' ∉ d.data) ∧ (∀ o ∈ operators, '"' ∉ o.data) := by
  decide

/-! ## The loop never runs out of fuel -/

theorem scanStep_length (st : ScanState) (c : Char) (rest : List Char) :
    (scanStep st c rest).2.length ≤ rest.length := by
  unfold scanStep
  split
  · exact (List.dropWhile_sublist _).length_le
  · dsimp only
    split
    · simp
    · split <;> simp

theorem scanLoop_fuel (fuel : Nat) (st : ScanState) (rest : List Char)
    (h : rest.length ≤ fuel) : scanLoop fuel st rest = scanLoop rest.length st rest := by
  induction fuel using Nat.strong_induction_on generalizing st rest with
  | _ fuel ih =>
    cases rest with
    | nil => cases fuel <;> rfl
    | cons c cs =>
      cases fuel with
      | zero => simp at h
      | succ n =>
        have hlen := scanStep_length st c cs
        simp only [List.length_cons, scanLoop]
        simp only [List.length_cons, Nat.add_le_add_iff_right] at h
        rw [ih n (by omega) _ _ (by omega), ih cs.length (by omega) _ _ hlen]

theorem scanRun_nil (st : ScanState) : scanRun st [] = st := rfl

theorem scanRun_cons (st : ScanState) (c : Char) (rest : List Char) :
    scanRun st (c :: rest) = scanRun (scanStep st c rest).1 (scanStep st c rest).2 := by
  unfold scanRun
  simp only [List.length_cons, scanLoop]
  exact scanLoop_fuel _ _ _ (scanStep_length st c rest)

theorem scan_eq_flush (code : List Char) :
    scan code = (scanRun ScanState.init code).flush.tokens := rfl

/-! ## The classification chain -/

theorem classifyAll_singleton (t u : Token) (h : classify t = some u) :
    classifyAll [t] = some [u] := by
  simp [classifyAll, h]

theorem classify_value (t u : Token) (h : classify t = some u) : u.value = t.value := by
  unfold classify at h
  split_ifs at h <;> try (simp only [Option.some.injEq] at h; subst h; rfl)
  split at h
  · simp at h
  · split_ifs at h <;> (simp only [Option.some.injEq] at h; subst h; rfl)

theorem classify_keyword (t u : Token) (h : classify t = some u)
    (hk : isKeyword u.value = true) : u.type = .KEYWORD := by
  rw [classify_value t u h] at hk
  simp only [classify, hk, if_true, Option.some.injEq] at h
  subst h
  rfl

theorem classifyAll_mem (ts out : List Token) (h : classifyAll ts = some out) (u : Token)
    (hu : u ∈ out) : ∃ t ∈ ts, classify t = some u := by
  induction ts generalizing out with
  | nil =>
    simp only [classifyAll, Option.some.injEq] at h
    subst h
    simp at hu
  | cons t ts ih =>
    unfold classifyAll at h
    split at h
    · simp at h
    · rename_i t1 ht1
      split at h
      · simp at h
      · rename_i ts1 hts1
        simp only [Option.some.injEq] at h
        subst h
        simp only [List.mem_cons] at hu
        rcases hu with rfl | hu
        · exact ⟨t, by simp, ht1⟩
        · obtain ⟨t0, ht0, hc⟩ := ih ts1 hts1 hu
          exact ⟨t0, by simp [ht0], hc⟩

theorem classify_defined (t : Token) (h : t.value.data ≠ []) : ∃ u, classify t = some u := by
  unfold classify
  split_ifs <;> try exact ⟨_, rfl⟩
  split
  · rename_i heq
    exact absurd heq h
  · split_ifs <;> exact ⟨_, rfl⟩

theorem classifyAll_defined (ts : List Token) (h : ∀ t ∈ ts, t.value.data ≠ []) :
    ∃ out, classifyAll ts = some out := by
  induction ts with
  | nil => exact ⟨[], rfl⟩
  | cons t ts ih =>
    obtain ⟨u, hu⟩ := classify_defined t (h t (by simp))
    obtain ⟨out, hout⟩ := ih (fun x hx => h x (by simp [hx]))
    exact ⟨u :: out, by simp [classifyAll, hu, hout]⟩

theorem classifyAll_values (ts out : List Token) (h : classifyAll ts = some out) :
    out.map Token.value = ts.map Token.value := by
  induction ts generalizing out with
  | nil =>
    simp only [classifyAll, Option.some.injEq] at h
    subst h
    rfl
  | cons t ts ih =>
    unfold classifyAll at h
    split at h
    · simp at h
    · rename_i t1 ht1
      split at h
      · simp at h
      · rename_i ts1 hts1
        simp only [Option.some.injEq] at h
        subst h
        simp only [List.map_cons, ih ts1 hts1, classify_value t t1 ht1]

theorem classifyAll_cons_fixed (t : Token) (ts : List Token) (h : classify t = some t) :
    classifyAll (t :: ts) = (classifyAll ts).map (fun out => t :: out) := by
  simp only [classifyAll, h]
  cases classifyAll ts <;> rfl

theorem numberChar_facts (c : Char) (h : digitClass c = true ∨ c = '.') :
    inRange 'a' 'z' c = false ∧ identStartClass c = false ∧ xClass c = false ∧ c ≠ '"' := by
  rcases h with h | rfl
  · simp only [digitClass, inRange, Bool.and_eq_true, decide_eq_true_eq] at h
    have h0 : '0'.toNat = 48 := by decide
    have h9 : '9'.toNat = 57 := by decide
    rw [h0, h9] at h
    have e1 : c ≠ '_' := by rintro rfl; revert h; decide
    have e2 : c ≠ 'x' := by rintro rfl; revert h; decide
    have e3 : c ≠ 'X' := by rintro rfl; revert h; decide
    have e4 : c ≠ '"' := by rintro rfl; revert h; decide
    have ha : 'a'.toNat = 97 := by decide
    have hz : 'z'.toNat = 122 := by decide
    have hA : 'A'.toNat = 65 := by decide
    have hZ : 'Z'.toNat = 90 := by decide
    refine ⟨?_, ?_, ?_, e4⟩
    · simp only [inRange, ha, hz, Bool.and_eq_false_iff, decide_eq_false_iff_not]
      omega
    · simp only [identStartClass, inRange, ha, hz, hA, hZ, Bool.or_eq_false_iff,
        Bool.and_eq_false_iff, decide_eq_false_iff_not, beq_eq_false_iff_ne]
      exact ⟨⟨e1, by omega⟩, by omega⟩
    · simp only [xClass, Bool.or_eq_false_iff, beq_eq_false_iff_ne]
      exact ⟨e2, e3⟩
  · decide

theorem numberLike_rejects (v : String) (h : IsNumberLike v.data) :
    isKeyword v = false ∧ isHexadecimalNumber v = false ∧ isIdentifier v = false ∧
      isStringConstant v = false := by
  obtain ⟨hne, hall⟩ := h
  obtain ⟨c, cs, hv⟩ := List.exists_cons_of_ne_nil hne
  have hc := numberChar_facts c (hall c (by simp [hv]))
  refine ⟨?_, ?_, ?_, ?_⟩
  · rw [Bool.eq_false_iff]
    intro hk
    have := (isKeyword_data v hk).2 c (by simp [hv])
    rw [hc.1] at this
    exact Bool.false_ne_true this
  · rw [Bool.eq_false_iff]
    intro hx
    obtain ⟨x, hs, hv2, hxc, -, -⟩ := (isHexadecimalNumber_iff v).1 hx
    have := (numberChar_facts x (hall x (by simp [hv2]))).2.2.1
    rw [hxc] at this
    exact Bool.false_ne_true this.symm
  · rw [Bool.eq_false_iff]
    intro hi
    obtain ⟨d, ds, hv2, hd, -⟩ := (isIdentifier_iff v).1 hi
    rw [hv] at hv2
    simp only [List.cons.injEq] at hv2
    rw [← hv2.1, hc.2.1] at hd
    exact Bool.false_ne_true hd
  · rw [Bool.eq_false_iff]
    intro hs
    have := isStringConstant_head v hs
    rw [hv] at this
    simp only [List.head?_cons, Option.some.injEq] at this
    exact hc.2.2.2 this

theorem isFraction_numberLike (w : List Char) (h : IsFraction w) : IsNumberLike w := by
  obtain ⟨a, b, hw, ha, -, hb⟩ := h
  subst hw
  refine ⟨by simp, ?_⟩
  intro c hc
  simp only [List.mem_append, List.mem_cons] at hc
  rcases hc with hc | rfl | hc
  · exact Or.inl (ha c hc)
  · exact Or.inr rfl
  · exact Or.inl (hb c hc)

theorem isDigits_numberLike (w : List Char) (h : IsDigits w) : IsNumberLike w :=
  ⟨h.1, fun c hc => Or.inl (h.2 c hc)⟩

theorem isTrailingDot_numberLike (w : List Char) (h : IsTrailingDot w) : IsNumberLike w := by
  obtain ⟨a, hw, -, ha⟩ := h
  subst hw
  refine ⟨by simp, ?_⟩
  intro c hc
  simp only [List.mem_append, List.mem_singleton] at hc
  rcases hc with hc | rfl
  · exact Or.inl (ha c hc)
  · exact Or.inr rfl

theorem isTrailingDot_not_numeric (w : List Char) (h : IsTrailingDot w) :
    ¬ (IsFraction w ∨ IsDigits w) := by
  obtain ⟨a, hw, -, -⟩ := h
  have hdot : digitClass '.' = false := by decide
  have hlast : w.getLast? = some '.' := by simp [hw]
  rintro (⟨a2, b, hw2, -, hne, hb⟩ | ⟨-, hd⟩)
  · obtain ⟨b0, bl, rfl⟩ := (List.eq_nil_or_concat b).resolve_left hne
    have : w.getLast? = some bl := by
      rw [hw2, List.concat_eq_append,
        show a2 ++ '.' :: (b0 ++ [bl]) = (a2 ++ '.' :: b0) ++ [bl] by simp]
      exact List.getLast?_concat _
    rw [hlast, Option.some.injEq] at this
    have hbl := hb bl (by simp [List.concat_eq_append])
    rw [← this, hdot] at hbl
    exact Bool.false_ne_true hbl
  · have := hd '.' (by simp [hw])
    rw [hdot] at this
    exact Bool.false_ne_true this

theorem alnum_facts (c : Char) (h : alnumClass c = true) :
    isspace c = false ∧ ispunct c = false ∧ c ≠ '.' ∧ c ≠ '"' ∧ c ≠ '#' := by
  simp only [alnumClass, inRange, Bool.or_eq_true, Bool.and_eq_true, decide_eq_true_eq] at h
  have h0 : '0'.toNat = 48 := by decide
  have h9 : '9'.toNat = 57 := by decide
  have ha : 'a'.toNat = 97 := by decide
  have hz : 'z'.toNat = 122 := by decide
  have hA : 'A'.toNat = 65 := by decide
  have hZ : 'Z'.toNat = 90 := by decide
  rw [h0, h9, ha, hz, hA, hZ] at h
  refine ⟨?_, ?_, ?_, ?_, ?_⟩
  · simp only [isspace, Bool.or_eq_false_iff, Bool.and_eq_false_iff, beq_eq_false_iff_ne,
      decide_eq_false_iff_not]
    omega
  · simp only [ispunct, Bool.or_eq_false_iff, Bool.and_eq_false_iff, decide_eq_false_iff_not]
    omega
  · rintro rfl; revert h; decide
  · rintro rfl; revert h; decide
  · rintro rfl; revert h; decide

theorem digit_facts (c : Char) (h : digitClass c = true) :
    inRange 'a' 'z' c = false ∧ identStartClass c = false :=
  ⟨(numberChar_facts c (Or.inl h)).1, (numberChar_facts c (Or.inl h)).2.1⟩

theorem quote_facts :
    inRange 'a' 'z' '"' = false ∧ identStartClass '"' = false ∧ identRestClass '"' = false ∧
      xClass '"' = false ∧ hexClass '"' = false ∧ digitClass '"' = false := by
  decide

theorem mark_facts (m : Char) (hm : m = '/' ∨ m = '#') :
    inRange 'a' 'z' m = false ∧ identStartClass m = false ∧ identRestClass m = false ∧
      xClass m = false ∧ hexClass m = false ∧ digitClass m = false ∧ m ≠ '0' ∧ m ≠ '.' ∧
      m ≠ '"' ∧ ispunct m = true := by
  rcases hm with rfl | rfl <;> decide

/-- A value that holds `/` or `#` and does not begin with a quote matches none
of the first six tests of the classification chain and is no delimiter. -/
theorem marked_rejects (v : String) (m : Char) (hm : m = '/' ∨ m = '#') (hmem : m ∈ v.data)
    (hq : v.data.head? ≠ some '"') :
    isKeyword v = false ∧ isHexadecimalNumber v = false ∧ isIdentifier v = false ∧
      isNumericConstant v = false ∧ isStringConstant v = false ∧ isDecimalNumber v = false ∧
      v ∉ delimiters := by
  obtain ⟨f1, f2, f3, f4, f5, f6, f7, f8, -, -⟩ := mark_facts m hm
  have hnl : ¬ IsNumberLike v.data := by
    rintro ⟨-, hall⟩
    rcases hall m hmem with h | h
    · rw [f6] at h
      exact Bool.false_ne_true h
    · exact f8 h
  refine ⟨?_, ?_, ?_, ?_, ?_, ?_, ?_⟩
  · rw [Bool.eq_false_iff]
    intro hk
    have := (isKeyword_data _ hk).2 m hmem
    rw [f1] at this
    exact Bool.false_ne_true this
  · rw [Bool.eq_false_iff]
    intro hh
    obtain ⟨y, h, hv, hy, -, hall⟩ := (isHexadecimalNumber_iff _).1 hh
    rw [hv] at hmem
    simp only [List.mem_cons] at hmem
    rcases hmem with h0 | rfl | hm3
    · exact f7 h0
    · rw [f4] at hy
      exact Bool.false_ne_true hy
    · have := hall m hm3
      rw [f5] at this
      exact Bool.false_ne_true this
  · rw [Bool.eq_false_iff]
    intro hi
    obtain ⟨d, ds, hv, hd, hall⟩ := (isIdentifier_iff _).1 hi
    rw [hv] at hmem
    simp only [List.mem_cons] at hmem
    rcases hmem with rfl | hm3
    · rw [f2] at hd
      exact Bool.false_ne_true hd
    · have := hall m hm3
      rw [f3] at this
      exact Bool.false_ne_true this
  · rw [Bool.eq_false_iff]
    intro hn
    rcases (isNumericConstant_iff _).1 hn with h | h
    · exact hnl (isFraction_numberLike _ h)
    · exact hnl (isDigits_numberLike _ h)
  · rw [Bool.eq_false_iff]
    intro hs
    exact hq (isStringConstant_head _ hs)
  · rw [Bool.eq_false_iff]
    intro hn
    rcases (isDecimalNumber_iff _).1 hn with h | h
    · exact hnl (isFraction_numberLike _ h)
    · exact hnl (isTrailingDot_numberLike _ h)
  · intro hd
    have := delimiters_unmarked _ hd
    rcases hm with rfl | rfl
    · exact this.1 hmem
    · exact this.2 hmem

theorem ordinary_nil : Ordinary [] := by
  intro c hc
  simp at hc

theorem ordinary_append (p : List Char) (hp : Ordinary p) (c : Char)
    (h1 : isspace c = false) (h2 : ispunct c = false) : Ordinary (p ++ [c]) := by
  intro d hd
  simp only [List.mem_append, List.mem_singleton] at hd
  rcases hd with hd | rfl
  · exact hp d hd
  · exact ⟨h1, h2⟩

/-- The chain on a token that matches none of its first eight tests: only the
first character of the value is left to look at. -/
theorem classify_unmatched (t : Token) (k1 : isKeyword t.value = false)
    (k2 : isHexadecimalNumber t.value = false) (k3 : isIdentifier t.value = false)
    (k4 : isNumericConstant t.value = false) (k5 : isStringConstant t.value = false)
    (k6 : isDecimalNumber t.value = false) (k7 : t.value ∉ delimiters)
    (k8 : t.value ∉ operators) (c : Char) (cs : List Char) (hv : t.value.data = c :: cs) :
    classify t =
      if c == '#' then some { t with type := .PREPROCESSOR_DIRECTIVE } else some t := by
  have k7' : delimiters.contains t.value = false := by
    rw [Bool.eq_false_iff]
    exact fun h => k7 (List.elem_iff.1 h)
  have k8' : operators.contains t.value = false := by
    rw [Bool.eq_false_iff]
    exact fun h => k8 (List.elem_iff.1 h)
  unfold classify
  rw [k1, k2, k3, k4, k5, k6, k7', k8', hv]
  rfl

theorem ordinary_not_punct (p : List Char) (hp : Ordinary p) (c : Char) (cs : List Char)
    (h : p = c :: cs) (hc : ispunct c = true) : False := by
  have := (hp c (by simp [h])).2
  rw [hc] at this
  exact Bool.false_ne_true this.symm

/-- A token whose value is ordinary text, a `/` and at least one more character,
not just `=`, is left as it is by the classification chain. -/
theorem classify_comment_shape (t : Token) (p r : List Char)
    (hv : t.value.data = p ++ '/' :: r) (hp : Ordinary p) (hr : r ≠ []) (hr2 : r ≠ ['=']) :
    classify t = some t := by
  have hq : t.value.data.head? ≠ some '"' := by
    rw [hv]
    cases p with
    | nil => simp
    | cons c cs =>
      simp only [List.cons_append, List.head?_cons, ne_eq, Option.some.injEq]
      rintro rfl
      exact ordinary_not_punct _ hp _ _ rfl (by decide)
  obtain ⟨k1, k2, k3, k4, k5, k6, k7⟩ :=
    marked_rejects t.value '/' (Or.inl rfl) (by simp [hv]) hq
  have k8 : t.value ∉ operators := by
    intro ho
    have h := (operators_marked _ ho).2 (by simp [hv])
    rw [hv] at h
    cases p with
    | nil =>
      simp only [List.nil_append, List.cons.injEq, true_and] at h
      rcases h with h | h
      · exact hr h
      · exact hr2 h
    | cons c cs =>
      have hc : c = '/' := by
        rcases h with h | h <;> simp only [List.cons_append, List.cons.injEq] at h <;> exact h.1
      exact ordinary_not_punct _ hp _ _ rfl (by rw [hc]; decide)
  cases p with
  | nil =>
    rw [classify_unmatched t k1 k2 k3 k4 k5 k6 k7 k8 '/' r hv]
    rfl
  | cons c cs =>
    have hc : (c == '#') = false := by
      rw [beq_eq_false_iff_ne]
      rintro rfl
      exact ordinary_not_punct _ hp _ _ rfl (by decide)
    rw [classify_unmatched t k1 k2 k3 k4 k5 k6 k7 k8 c (cs ++ '/' :: r) hv, hc]
    rfl

/-- A `PREPROCESSOR_DIRECTIVE` token whose value is ordinary text followed by `#`
and anything is left as it is by the classification chain. -/
theorem classify_directive_shape (t : Token) (p w : List Char)
    (hv : t.value.data = p ++ '#' :: w) (hp : Ordinary p)
    (hty : t.type = .PREPROCESSOR_DIRECTIVE) : classify t = some t := by
  have hq : t.value.data.head? ≠ some '"' := by
    rw [hv]
    cases p with
    | nil => simp
    | cons c cs =>
      simp only [List.cons_append, List.head?_cons, ne_eq, Option.some.injEq]
      rintro rfl
      exact ordinary_not_punct _ hp _ _ rfl (by decide)
  obtain ⟨k1, k2, k3, k4, k5, k6, k7⟩ :=
    marked_rejects t.value '#' (Or.inr rfl) (by simp [hv]) hq
  have k8 : t.value ∉ operators := by
    intro ho
    exact (operators_marked _ ho).1 (by simp [hv])
  have hsame : ({ t with type := .PREPROCESSOR_DIRECTIVE } : Token) = t := by
    obtain ⟨v, ty⟩ := t
    simp only at hty
    rw [hty]
  cases p with
  | nil =>
    rw [classify_unmatched t k1 k2 k3 k4 k5 k6 k7 k8 '#' w hv, hsame]
    rfl
  | cons c cs =>
    rw [classify_unmatched t k1 k2 k3 k4 k5 k6 k7 k8 c (cs ++ '#' :: w) hv, hsame]
    simp

/-- A string token whose text holds no quote and does not begin with `#` is
left as it is by the classification chain. -/
theorem classify_string_shape (t : Token) (s : List Char) (hv : t.value.data = s ++ ['"'])
    (hs : '"' ∉ s) (hh : s.head? ≠ some '#') : classify t = some t := by
  obtain ⟨f1, f2, f3, f4, f5, f6⟩ := quote_facts
  have hmem : '"' ∈ t.value.data := by simp [hv]
  have hnl : ¬ IsNumberLike t.value.data := by
    rintro ⟨-, hall⟩
    rcases hall '"' hmem with h | h
    · rw [f6] at h
      exact Bool.false_ne_true h
    · exact absurd h (by decide)
  have k1 : isKeyword t.value = false := by
    rw [Bool.eq_false_iff]
    intro hk
    have := (isKeyword_data _ hk).2 '"' hmem
    rw [f1] at this
    exact Bool.false_ne_true this
  have k2 : isHexadecimalNumber t.value = false := by
    rw [Bool.eq_false_iff]
    intro hx
    obtain ⟨y, h, hv2, hy, -, hall⟩ := (isHexadecimalNumber_iff _).1 hx
    rw [hv2] at hmem
    simp only [List.mem_cons] at hmem
    rcases hmem with h0 | rfl | hm3
    · exact absurd h0 (by decide)
    · rw [f4] at hy
      exact Bool.false_ne_true hy
    · have := hall '"' hm3
      rw [f5] at this
      exact Bool.false_ne_true this
  have k3 : isIdentifier t.value = false := by
    rw [Bool.eq_false_iff]
    intro hi
    obtain ⟨d, ds, hv2, hd, hall⟩ := (isIdentifier_iff _).1 hi
    rw [hv2] at hmem
    simp only [List.mem_cons] at hmem
    rcases hmem with rfl | hm3
    · rw [f2] at hd
      exact Bool.false_ne_true hd
    · have := hall '"' hm3
      rw [f3] at this
      exact Bool.false_ne_true this
  have k4 : isNumericConstant t.value = false := by
    rw [Bool.eq_false_iff]
    intro hn
    rcases (isNumericConstant_iff _).1 hn with h | h
    · exact hnl (isFraction_numberLike _ h)
    · exact hnl (isDigits_numberLike _ h)
  have k6 : isDecimalNumber t.value = false := by
    rw [Bool.eq_false_iff]
    intro hn
    rcases (isDecimalNumber_iff _).1 hn with h | h
    · exact hnl (isFraction_numberLike _ h)
    · exact hnl (isTrailingDot_numberLike _ h)
  have k7 : t.value ∉ delimiters := fun h => vocabulary_no_quote.1 _ h hmem
  have k8 : t.value ∉ operators := fun h => vocabulary_no_quote.2 _ h hmem
  cases s with
  | nil =>
    have hv' : t.value = "\"" := String.ext hv
    have k5 : isStringConstant t.value = false := by
      rw [hv']
      decide
    rw [classify_unmatched t k1 k2 k3 k4 k5 k6 k7 k8 '"' [] hv]
    rfl
  | cons c cs =>
    simp only [List.mem_cons, not_or] at hs
    have k5 : isStringConstant t.value = false := by
      rw [Bool.eq_false_iff]
      intro h5
      have := isStringConstant_head _ h5
      rw [hv] at this
      simp only [List.cons_append, List.head?_cons, Option.some.injEq] at this
      exact hs.1 this.symm
    have hc : (c == '#') = false := by
      rw [beq_eq_false_iff_ne]
      intro h
      exact hh (by simp [h])
    rw [classify_unmatched t k1 k2 k3 k4 k5 k6 k7 k8 c (cs ++ ['"']) hv, hc]
    rfl

/-- Two tokens with the same value that matches a test of the chain are given
the same category, whatever categories they had before. -/
theorem classify_congr (v : String) (ty1 ty2 : TokenType) (t1 t2 : Token)
    (hm : ruleMatches v = true) (c1 : classify ⟨v, ty1⟩ = some t1)
    (c2 : classify ⟨v, ty2⟩ = some t2) : t1.type = t2.type := by
  unfold classify at c1 c2
  dsimp only at c1 c2
  by_cases k1 : isKeyword v = true
  · rw [if_pos k1] at c1 c2
    simp only [Option.some.injEq] at c1 c2
    rw [← c1, ← c2]
  rw [if_neg k1] at c1 c2
  by_cases k2 : isHexadecimalNumber v = true
  · rw [if_pos k2] at c1 c2
    simp only [Option.some.injEq] at c1 c2
    rw [← c1, ← c2]
  rw [if_neg k2] at c1 c2
  by_cases k3 : isIdentifier v = true
  · rw [if_pos k3] at c1 c2
    simp only [Option.some.injEq] at c1 c2
    rw [← c1, ← c2]
  rw [if_neg k3] at c1 c2
  by_cases k4 : isNumericConstant v = true
  · rw [if_pos k4] at c1 c2
    simp only [Option.some.injEq] at c1 c2
    rw [← c1, ← c2]
  rw [if_neg k4] at c1 c2
  by_cases k5 : isStringConstant v = true
  · rw [if_pos k5] at c1 c2
    simp only [Option.some.injEq] at c1 c2
    rw [← c1, ← c2]
  rw [if_neg k5] at c1 c2
  by_cases k6 : isDecimalNumber v = true
  · rw [if_pos k6] at c1 c2
    simp only [Option.some.injEq] at c1 c2
    rw [← c1, ← c2]
  rw [if_neg k6] at c1 c2
  by_cases k7 : delimiters.contains v = true
  · rw [if_pos k7] at c1 c2
    simp only [Option.some.injEq] at c1 c2
    rw [← c1, ← c2]
  rw [if_neg k7] at c1 c2
  by_cases k8 : operators.contains v = true
  · rw [if_pos k8] at c1 c2
    simp only [Option.some.injEq] at c1 c2
    rw [← c1, ← c2]
  rw [if_neg k8] at c1 c2
  have hh : v.data.head? = some '#' := by
    simp only [ruleMatches, Bool.or_eq_true, k1, k2, k3, k4, k5, k6, k7, k8, false_or,
      beq_iff_eq, Bool.false_eq_true] at hm
    exact hm
  cases hd : v.data with
  | nil => simp [hd] at hh
  | cons c cs =>
    rw [hd] at hh c1 c2
    simp only [List.head?_cons, Option.some.injEq] at hh
    subst hh
    simp only [beq_self_eq_true, if_true, Option.some.injEq] at c1 c2
    rw [← c1, ← c2]

/-- A token whose non-empty value matches no test of the chain keeps the
category the scanner gave it. -/
theorem classify_no_rule (t : Token) (hne : t.value.data ≠ [])
    (hm : ruleMatches t.value = false) : classify t = some t := by
  simp only [ruleMatches, Bool.or_eq_false_iff] at hm
  obtain ⟨⟨⟨⟨⟨⟨⟨⟨k1, k2⟩, k3⟩, k4⟩, k5⟩, k6⟩, k7⟩, k8⟩, k9⟩ := hm
  obtain ⟨c, cs, hv⟩ := List.exists_cons_of_ne_nil hne
  have hc : (c == '#') = false := by
    simpa [hv] using k9
  have k7' : t.value ∉ delimiters :=
    fun h => Bool.false_ne_true (k7.symm.trans (List.elem_iff.2 h))
  have k8' : t.value ∉ operators :=
    fun h => Bool.false_ne_true (k8.symm.trans (List.elem_iff.2 h))
  rw [classify_unmatched t k1 k2 k3 k4 k5 k6 k7' k8' c cs hv, hc]
  rfl

/-! ## One iteration of the loop, mode by mode -/

theorem scanStep_ordinary (st : ScanState) (c : Char) (rest : List Char) (hn : st.Normal)
    (hs : isspace c = false) (hp : ispunct c = false) :
    scanStep st c rest = ({ st with token := st.token ++ [c] }, rest) := by
  obtain ⟨h1, h2, h3⟩ := hn
  have e1 : (c == '#') = false := by
    rw [beq_eq_false_iff_ne]; rintro rfl; simp [ispunct] at hp
  have e2 : (c == '/') = false := by
    rw [beq_eq_false_iff_ne]; rintro rfl; simp [ispunct] at hp
  have e3 : (c == '"') = false := by
    rw [beq_eq_false_iff_ne]; rintro rfl; simp [ispunct] at hp
  simp [scanStep, commentStart, singleLineEnd, plainChar, h1, h2, h3, e1, e2, e3, hs, hp]

theorem scanStep_string_char (st : ScanState) (c : Char) (rest : List Char) (hs : st.InString)
    (hc : c ≠ '"') : scanStep st c rest = ({ st with token := st.token ++ [c] }, rest) := by
  obtain ⟨h1, h2, h3⟩ := hs
  simp [scanStep, commentStart, singleLineEnd, plainChar, h1, h2, h3, hc]

theorem scanStep_string_open (st : ScanState) (rest : List Char) (hn : st.Normal) :
    scanStep st '"' rest = ({ st.flush with inString := true }, rest) := by
  obtain ⟨h1, h2, h3⟩ := hn
  simp [scanStep, commentStart, singleLineEnd, plainChar, h1, h2, h3]

theorem scanStep_string_close (st : ScanState) (rest : List Char) (hs : st.InString) :
    scanStep st '"' rest =
      ({ st with tokens := st.tokens ++ [⟨String.mk (st.token ++ ['"']), .STRING_CONSTANT⟩],
                 token := [], inString := false }, rest) := by
  obtain ⟨h1, h2, h3⟩ := hs
  simp [scanStep, commentStart, singleLineEnd, plainChar, ScanState.emit, h1, h2, h3]

theorem scanStep_single_open (st : ScanState) (rest : List Char) (hn : st.Normal) :
    scanStep st '/' ('/' :: rest) =
      ({ st with inSingleLineComment := true, token := st.token ++ ['/'] }, '/' :: rest) := by
  obtain ⟨h1, h2, h3⟩ := hn
  simp [scanStep, commentStart, singleLineEnd, h1, h2, h3]

theorem scanStep_multi_open (st : ScanState) (rest : List Char) (hn : st.Normal) :
    scanStep st '/' ('*' :: rest) =
      ({ st with inMultiLineComment := true, token := st.token ++ ['/'] }, '*' :: rest) := by
  obtain ⟨h1, h2, h3⟩ := hn
  simp [scanStep, commentStart, singleLineEnd, h1, h2, h3]

theorem scanStep_single_char (st : ScanState) (c : Char) (rest : List Char) (hs : st.InSingle)
    (hc : c ≠ '\n') (hn : ¬ (c = '/' ∧ rest.head? = some '*')) :
    scanStep st c rest = ({ st with token := st.token ++ [c] }, rest) := by
  obtain ⟨h1, h2, h3⟩ := hs
  cases rest with
  | nil => simp [scanStep, commentStart, singleLineEnd, h1, h2, h3, hc]
  | cons n r =>
    by_cases hsl : c = '/'
    · subst hsl
      have hn2 : n ≠ '*' := fun h => hn ⟨rfl, by simp [h]⟩
      by_cases hn3 : n = '/'
      · subst hn3
        simp [scanStep, commentStart, singleLineEnd, h1, h2, h3]
      · simp [scanStep, commentStart, singleLineEnd, h1, h2, h3, hn2, hn3]
    · simp [scanStep, commentStart, singleLineEnd, h1, h2, h3, hc, hsl]

theorem scanStep_single_end (st : ScanState) (rest : List Char) (hs : st.InSingle) :
    scanStep st '\n' rest =
      ({ st with tokens := st.tokens ++ [⟨String.mk st.token, .COMMENT⟩], token := [],
                 inSingleLineComment := false }, rest) := by
  obtain ⟨h1, h2, h3⟩ := hs
  simp [scanStep, commentStart, singleLineEnd, plainChar, ScanState.emit, ScanState.flush,
    isspace, h1, h2, h3]

theorem scanStep_multi_char (st : ScanState) (c : Char) (rest : List Char) (hs : st.InMulti)
    (hn : ¬ (c = '*' ∧ rest.head? = some '/')) :
    scanStep st c rest = ({ st with token := st.token ++ [c] }, rest) := by
  obtain ⟨h1, h2, h3⟩ := hs
  by_cases hc : c = '*'
  · subst hc
    have hn2 : rest.head? ≠ some '/' := fun h => hn ⟨rfl, h⟩
    simp [scanStep, commentStart, singleLineEnd, h1, h2, h3, hn2]
  · simp [scanStep, commentStart, singleLineEnd, h1, h2, h3, hc]

theorem scanStep_multi_close (st : ScanState) (rest : List Char) (hs : st.InMulti) :
    scanStep st '*' ('/' :: rest) =
      ({ st with tokens := st.tokens ++ [⟨String.mk (st.token ++ ['*', '/']), .COMMENT⟩],
                 token := [], inMultiLineComment := false }, rest) := by
  obtain ⟨h1, h2, h3⟩ := hs
  simp [scanStep, commentStart, singleLineEnd, ScanState.emit, h1, h2, h3]

theorem scanStep_directive (st : ScanState) (rest : List Char) (hn : st.Normal) :
    scanStep st '#' rest =
      ({ st with
          tokens := st.tokens ++
            [⟨String.mk (st.token ++ '#' :: rest.takeWhile (fun d => !isspace d)),
              .PREPROCESSOR_DIRECTIVE⟩],
          token := [] },
        rest.dropWhile (fun d => !isspace d)) := by
  obtain ⟨h1, h2, h3⟩ := hn
  simp [scanStep, ScanState.emit, h1, h2, h3]

theorem scanStep_normal_plain (st : ScanState) (c : Char) (rest : List Char) (hn : st.Normal)
    (hc : c ≠ '#') (hsl : ¬ (c = '/' ∧ (rest.head? = some '/' ∨ rest.head? = some '*'))) :
    scanStep st c rest = (plainChar st c, rest) := by
  obtain ⟨h1, h2, h3⟩ := hn
  by_cases hs : c = '/'
  · subst hs
    cases rest with
    | nil => simp [scanStep, commentStart, singleLineEnd, h1, h2, h3]
    | cons n r =>
      have hn1 : n ≠ '/' := fun h => hsl ⟨rfl, Or.inl (by simp [h])⟩
      have hn2 : n ≠ '*' := fun h => hsl ⟨rfl, Or.inr (by simp [h])⟩
      simp [scanStep, commentStart, singleLineEnd, h1, h2, h3, hn1, hn2]
  · simp [scanStep, commentStart, singleLineEnd, h1, h2, h3, hc, hs]

theorem scanStep_string_plain (st : ScanState) (c : Char) (rest : List Char)
    (hs : st.InString) : scanStep st c rest = (plainChar st c, rest) := by
  obtain ⟨h1, h2, h3⟩ := hs
  simp [scanStep, commentStart, singleLineEnd, h1, h2, h3]

theorem scanStep_single_slash_star (st : ScanState) (rest : List Char) (hs : st.InSingle) :
    flagsExclusive (scanStep st '/' ('*' :: rest)).1 = false := by
  obtain ⟨h1, h2, h3⟩ := hs
  simp [scanStep, commentStart, singleLineEnd, flagsExclusive, h1, h2, h3]

theorem space_facts (s : Char) (hs : isspace s = true) : s ≠ '#' ∧ s ≠ '/' ∧ s ≠ '"' := by
  refine ⟨?_, ?_, ?_⟩ <;> (rintro rfl; revert hs; decide)

theorem scanStep_space (st : ScanState) (s : Char) (rest : List Char) (hn : st.Normal)
    (hs : isspace s = true) : scanStep st s rest = (st.flush, rest) := by
  obtain ⟨h1, h2, h3⟩ := space_facts s hs
  rw [scanStep_normal_plain st s rest hn h1 (fun h => h2 h.1)]
  have hq : (s == '"') = false := by rw [beq_eq_false_iff_ne]; exact h3
  simp [plainChar, hq, hn.1, hs]

/-! ## Tokens emitted earlier do not influence the loop -/

theorem emit_prepend (ts : List Token) (st : ScanState) (ty : TokenType) :
    (st.prepend ts).emit ty = (st.emit ty).prepend ts := by
  simp [ScanState.prepend, ScanState.emit]

theorem flush_prepend (ts : List Token) (st : ScanState) :
    (st.prepend ts).flush = st.flush.prepend ts := by
  unfold ScanState.flush
  by_cases h : st.token.isEmpty = true
  · have h2 : (st.prepend ts).token.isEmpty = true := h
    rw [if_pos h, if_pos h2]
  · have h2 : ¬ (st.prepend ts).token.isEmpty = true := h
    rw [if_neg h, if_neg h2, emit_prepend]

theorem commentStart_prepend (ts : List Token) (st : ScanState) (c : Char) (rest : List Char) :
    commentStart (st.prepend ts) c rest = (commentStart st c rest).prepend ts := by
  unfold commentStart
  show (if (c == '/' && !st.inString && !st.inMultiLineComment) = true then _ else _) = _
  split
  · cases rest with
    | nil => rfl
    | cons n r =>
      dsimp only
      split
      · rfl
      · split <;> rfl
  · rfl

theorem singleLineEnd_prepend (ts : List Token) (st : ScanState) (c : Char) :
    singleLineEnd (st.prepend ts) c = (singleLineEnd st c).prepend ts := by
  unfold singleLineEnd
  show (if (st.inSingleLineComment && c == '\n') = true then _ else _) = _
  split
  · exact emit_prepend ts { st with inSingleLineComment := false } .COMMENT
  · rfl

theorem plainChar_prepend (ts : List Token) (st : ScanState) (c : Char) :
    plainChar (st.prepend ts) c = (plainChar st c).prepend ts := by
  unfold plainChar
  split
  · show (if st.inString = true then _ else _) = _
    split
    · simp [ScanState.prepend, ScanState.emit]
    · rw [flush_prepend]
      rfl
  · show (if st.inString = true then _ else _) = _
    split
    · rfl
    · split
      · exact flush_prepend ts st
      · split
        · rw [flush_prepend]
          simp [ScanState.prepend]
        · rfl

theorem scanStep_prepend (ts : List Token) (st : ScanState) (c : Char) (rest : List Char) :
    scanStep (st.prepend ts) c rest =
      ((scanStep st c rest).1.prepend ts, (scanStep st c rest).2) := by
  unfold scanStep
  show (if (c == '#' && !st.inString && !st.inSingleLineComment &&
      !st.inMultiLineComment) = true then _ else _) = _
  split
  · simp [ScanState.prepend, ScanState.emit]
  · dsimp only
    rw [commentStart_prepend, singleLineEnd_prepend]
    show (if ((singleLineEnd (commentStart st c rest) c).inMultiLineComment && c == '*' &&
      rest.head? == some '/') = true then _ else _) = _
    split
    · simp [ScanState.prepend, ScanState.emit]
    · show (if ((singleLineEnd (commentStart st c rest) c).inSingleLineComment ||
        (singleLineEnd (commentStart st c rest) c).inMultiLineComment) = true then _ else _) = _
      split
      · rfl
      · rw [plainChar_prepend]

theorem scanLoop_prepend (ts : List Token) (fuel : Nat) (st : ScanState) (rest : List Char) :
    scanLoop fuel (st.prepend ts) rest = (scanLoop fuel st rest).prepend ts := by
  induction fuel generalizing st rest with
  | zero => rfl
  | succ n ih =>
    cases rest with
    | nil => rfl
    | cons c cs =>
      simp only [scanLoop, scanStep_prepend]
      exact ih _ _

theorem scanRun_prepend (ts : List Token) (st : ScanState) (rest : List Char) :
    scanRun (st.prepend ts) rest = (scanRun st rest).prepend ts :=
  scanLoop_prepend ts _ st rest

/-! ## Runs of the loop inside one mode -/

theorem scanRun_ordinary (w rest : List Char) (st : ScanState) (hn : st.Normal)
    (hw : ∀ c ∈ w, isspace c = false ∧ ispunct c = false) :
    scanRun st (w ++ rest) = scanRun { st with token := st.token ++ w } rest := by
  induction w generalizing st with
  | nil => simp
  | cons c cs ih =>
    have hc := hw c (by simp)
    rw [List.cons_append, scanRun_cons, scanStep_ordinary st c _ hn hc.1 hc.2]
    dsimp only
    rw [ih { st with token := st.token ++ [c] } hn (fun d hd => hw d (by simp [hd]))]
    simp

theorem scan_ordinary (w : List Char) (hne : w ≠ [])
    (hw : ∀ c ∈ w, isspace c = false ∧ ispunct c = false) :
    scan w = [⟨String.mk w, .UNKNOWN⟩] := by
  have h := scanRun_ordinary w [] ScanState.init ⟨rfl, rfl, rfl⟩ hw
  rw [List.append_nil, scanRun_nil] at h
  unfold scan
  rw [show scanLoop w.length ScanState.init w = scanRun ScanState.init w from rfl, h]
  cases w with
  | nil => exact absurd rfl hne
  | cons c cs => simp [ScanState.flush, ScanState.emit, ScanState.init]

theorem hexClass_ordinary (c : Char) (h : hexClass c = true) :
    isspace c = false ∧ ispunct c = false := by
  simp only [hexClass, inRange, Bool.or_eq_true, Bool.and_eq_true, decide_eq_true_eq] at h
  have h0 : '0'.toNat = 48 := by decide
  have h9 : '9'.toNat = 57 := by decide
  have ha : 'a'.toNat = 97 := by decide
  have hf : 'f'.toNat = 102 := by decide
  have hA : 'A'.toNat = 65 := by decide
  have hF : 'F'.toNat = 70 := by decide
  rw [h0, h9, ha, hf, hA, hF] at h
  constructor
  · simp only [isspace, Bool.or_eq_false_iff, Bool.and_eq_false_iff, beq_eq_false_iff_ne,
      decide_eq_false_iff_not]
    omega
  · simp only [ispunct, Bool.or_eq_false_iff, Bool.and_eq_false_iff, decide_eq_false_iff_not]
    omega

theorem tokenize_hex_core (x : Char) (h : List Char) (hx : xClass x = true) (hne : h ≠ [])
    (hh : ∀ c ∈ h, hexClass c = true) :
    tokenize (String.mk ('0' :: x :: h)) =
      some [⟨String.mk ('0' :: x :: h), .HEXADECIMAL_NUMBER⟩] := by
  have hord : ∀ c ∈ '0' :: x :: h, isspace c = false ∧ ispunct c = false := by
    intro c hc
    simp only [List.mem_cons] at hc
    rcases hc with rfl | rfl | hc
    · decide
    · simp only [xClass, Bool.or_eq_true, beq_iff_eq] at hx
      rcases hx with rfl | rfl <;> decide
    · exact hexClass_ordinary c (hh c hc)
  unfold tokenize
  rw [show (String.mk ('0' :: x :: h)).data = '0' :: x :: h from rfl,
    scan_ordinary _ (by simp) hord]
  apply classifyAll_singleton
  have hk : isKeyword (String.mk ('0' :: x :: h)) = false := by
    rw [Bool.eq_false_iff]
    intro hk
    have := (isKeyword_data _ hk).2 '0' (by simp)
    revert this
    decide
  have hhex : isHexadecimalNumber (String.mk ('0' :: x :: h)) = true :=
    (isHexadecimalNumber_iff _).2 ⟨x, h, rfl, hx, hne, hh⟩
  simp only [classify, hk, hhex, Bool.false_eq_true, if_false, if_true]

theorem scanRun_string (w rest : List Char) (st : ScanState) (hs : st.InString)
    (hw : '"' ∉ w) : scanRun st (w ++ rest) = scanRun { st with token := st.token ++ w } rest := by
  induction w generalizing st with
  | nil => simp
  | cons c cs ih =>
    simp only [List.mem_cons, not_or] at hw
    rw [List.cons_append, scanRun_cons, scanStep_string_char st c _ hs (Ne.symm hw.1)]
    dsimp only
    rw [ih { st with token := st.token ++ [c] } hs hw.2]
    simp

theorem scanRun_single (w rest : List Char) (st : ScanState) (hs : st.InSingle)
    (hw : '\n' ∉ w) (hns : noSlashStar (w ++ rest.take 1) = true) :
    scanRun st (w ++ rest) = scanRun { st with token := st.token ++ w } rest := by
  induction w generalizing st with
  | nil => simp
  | cons c cs ih =>
    simp only [List.mem_cons, not_or] at hw
    have hstep : ¬ (c = '/' ∧ (cs ++ rest).head? = some '*') := by
      rintro ⟨rfl, h⟩
      cases cs with
      | nil =>
        cases rest with
        | nil => simp at h
        | cons r rs =>
          simp only [List.nil_append, List.head?_cons, Option.some.injEq] at h
          subst h
          simp [noSlashStar] at hns
      | cons d ds =>
        simp only [List.cons_append, List.head?_cons, Option.some.injEq] at h
        subst h
        simp [noSlashStar] at hns
    have htail : noSlashStar (cs ++ rest.take 1) = true := by
      cases hcs : cs ++ rest.take 1 with
      | nil => rfl
      | cons d ds =>
        rw [List.cons_append, hcs] at hns
        simp only [noSlashStar, Bool.and_eq_true] at hns
        exact hns.2
    rw [List.cons_append, scanRun_cons, scanStep_single_char st c _ hs (Ne.symm hw.1) hstep]
    dsimp only
    rw [ih { st with token := st.token ++ [c] } hs hw.2 htail]
    simp

theorem scanRun_multi (w rest : List Char) (st : ScanState) (hs : st.InMulti)
    (hns : noStarSlash (w ++ rest.take 1) = true) :
    scanRun st (w ++ rest) = scanRun { st with token := st.token ++ w } rest := by
  induction w generalizing st with
  | nil => simp
  | cons c cs ih =>
    have hstep : ¬ (c = '*' ∧ (cs ++ rest).head? = some '/') := by
      rintro ⟨rfl, h⟩
      cases cs with
      | nil =>
        cases rest with
        | nil => simp at h
        | cons r rs =>
          simp only [List.nil_append, List.head?_cons, Option.some.injEq] at h
          subst h
          simp [noStarSlash] at hns
      | cons d ds =>
        simp only [List.cons_append, List.head?_cons, Option.some.injEq] at h
        subst h
        simp [noStarSlash] at hns
    have htail : noStarSlash (cs ++ rest.take 1) = true := by
      cases hcs : cs ++ rest.take 1 with
      | nil => rfl
      | cons d ds =>
        rw [List.cons_append, hcs] at hns
        simp only [noStarSlash, Bool.and_eq_true] at hns
        exact hns.2
    rw [List.cons_append, scanRun_cons, scanStep_multi_char st c _ hs hstep]
    dsimp only
    rw [ih { st with token := st.token ++ [c] } hs htail]
    simp

/-- The scanner on a quoted text without inner quotes: one `STRING_CONSTANT`
token whose value is the text and the closing quote. -/
theorem scan_quoted (s : List Char) (hs : '"' ∉ s) :
    scan ('"' :: (s ++ ['"'])) = [⟨String.mk (s ++ ['"']), .STRING_CONSTANT⟩] := by
  rw [scan_eq_flush, scanRun_cons, scanStep_string_open _ _ ⟨rfl, rfl, rfl⟩]
  dsimp only
  rw [scanRun_string s ['"'] _ ⟨rfl, rfl, rfl⟩ hs, scanRun_cons,
    scanStep_string_close _ _ ⟨rfl, rfl, rfl⟩]
  simp [scanRun_nil, ScanState.flush, ScanState.init]

/-- The scanner on `//`, a text without newline in which no `/` (the second
slash of the opener included) is followed by `*`, and a newline. -/
theorem scan_single_line (s : List Char) (hs : '\n' ∉ s) (hn : noSlashStar ('/' :: s) = true) :
    scan ('/' :: '/' :: (s ++ ['\n'])) = [⟨String.mk ('/' :: '/' :: s), .COMMENT⟩] := by
  have hw : '\n' ∉ '/' :: s := by
    simp only [List.mem_cons, not_or]
    exact ⟨by decide, hs⟩
  have hns : noSlashStar (('/' :: s) ++ ['\n'].take 1) = true := by
    have key : ∀ (w : List Char), noSlashStar w = true → noSlashStar (w ++ ['\n']) = true := by
      intro w
      induction w with
      | nil => intro _; rfl
      | cons c cs ih =>
        intro h
        cases cs with
        | nil => simp [noSlashStar]
        | cons d ds =>
          simp only [noSlashStar, Bool.and_eq_true] at h
          simp only [List.cons_append, noSlashStar, Bool.and_eq_true]
          exact ⟨h.1, ih h.2⟩
    exact key _ hn
  rw [scan_eq_flush, scanRun_cons, scanStep_single_open _ _ ⟨rfl, rfl, rfl⟩]
  dsimp only
  rw [show '/' :: (s ++ ['\n']) = ('/' :: s) ++ ['\n'] from rfl,
    scanRun_single ('/' :: s) ['\n'] _ ⟨rfl, rfl, rfl⟩ hw hns, scanRun_cons,
    scanStep_single_end _ _ ⟨rfl, rfl, rfl⟩]
  simp [scanRun_nil, ScanState.flush, ScanState.init]

/-- The scanner on `/*`, a text that does not begin with `/` and in which no `*`
is followed by `/`, and `*/`. -/
theorem scan_multi_line (b : List Char) (hb : b.head? ≠ some '/')
    (hn : noStarSlash b = true) :
    scan ('/' :: '*' :: (b ++ ['*', '/'])) =
      [⟨String.mk ('/' :: '*' :: (b ++ ['*', '/'])), .COMMENT⟩] := by
  have hns : noStarSlash (('*' :: b) ++ ['*', '/'].take 1) = true := by
    have key : ∀ (w : List Char), noStarSlash w = true → noStarSlash (w ++ ['*']) = true := by
      intro w
      induction w with
      | nil => intro _; rfl
      | cons c cs ih =>
        intro h
        cases cs with
        | nil => simp [noStarSlash]
        | cons d ds =>
          simp only [noStarSlash, Bool.and_eq_true] at h
          simp only [List.cons_append, noStarSlash, Bool.and_eq_true]
          exact ⟨h.1, ih h.2⟩
    have h2 : noStarSlash ('*' :: b) = true := by
      cases b with
      | nil => rfl
      | cons d ds =>
        simp only [List.head?_cons, ne_eq, Option.some.injEq] at hb
        simp only [noStarSlash, Bool.and_eq_true, hn, and_true]
        simp [hb]
    exact key _ h2
  rw [scan_eq_flush, scanRun_cons, scanStep_multi_open _ _ ⟨rfl, rfl, rfl⟩]
  dsimp only
  rw [show '*' :: (b ++ ['*', '/']) = ('*' :: b) ++ ['*', '/'] from rfl,
    scanRun_multi ('*' :: b) ['*', '/'] _ ⟨rfl, rfl, rfl⟩ hns, scanRun_cons,
    scanStep_multi_close _ _ ⟨rfl, rfl, rfl⟩]
  simp [scanRun_nil, ScanState.flush, ScanState.init]

theorem noSlashStar_of_no_star (w : List Char) (c : Char) (hw : '*' ∉ w) :
    noSlashStar (c :: w) = true := by
  induction w generalizing c with
  | nil => rfl
  | cons d ds ih =>
    simp only [List.mem_cons, not_or] at hw
    have hd : (d == '*') = false := by
      rw [beq_eq_false_iff_ne]
      exact Ne.symm hw.1
    simp only [noSlashStar, hd, Bool.and_false, Bool.not_false, Bool.true_and]
    exact ih d hw.2

theorem noSlashStar_append_one (w : List Char) (c : Char) (hc : c ≠ '*')
    (hw : noSlashStar w = true) : noSlashStar (w ++ [c]) = true := by
  induction w with
  | nil => rfl
  | cons a as ih =>
    cases as with
    | nil =>
      have : (c == '*') = false := by rw [beq_eq_false_iff_ne]; exact hc
      simp [noSlashStar, this]
    | cons d ds =>
      simp only [noSlashStar, Bool.and_eq_true] at hw
      simp only [List.cons_append, noSlashStar, Bool.and_eq_true]
      exact ⟨hw.1, ih hw.2⟩

/-- The state the loop reaches on ordinary text `p`, `//` and a text `s` without
newline and without `*`, when nothing or a character other than `*` follows:
still inside the single-line comment, with everything read so far pending. -/
theorem scanRun_comment_body (p s rest : List Char) (hp : Ordinary p) (hs : '\n' ∉ s)
    (hstar : '*' ∉ s) (hrest : rest.head? ≠ some '*') :
    scanRun ScanState.init (p ++ '/' :: '/' :: (s ++ rest)) =
      scanRun { ScanState.init with
          token := p ++ '/' :: '/' :: s, inSingleLineComment := true } rest := by
  have hw : '\n' ∉ '/' :: s := by
    simp only [List.mem_cons, not_or]
    exact ⟨by decide, hs⟩
  have hns : noSlashStar (('/' :: s) ++ rest.take 1) = true := by
    cases rest with
    | nil => simpa using noSlashStar_of_no_star s '/' hstar
    | cons r rs =>
      have hr : r ≠ '*' := fun h => hrest (by simp [h])
      exact noSlashStar_append_one _ r hr (noSlashStar_of_no_star s '/' hstar)
  rw [scanRun_ordinary p _ ScanState.init ⟨rfl, rfl, rfl⟩ hp, scanRun_cons,
    scanStep_single_open _ _ ⟨rfl, rfl, rfl⟩]
  dsimp only
  rw [show '/' :: (s ++ rest) = ('/' :: s) ++ rest from rfl,
    scanRun_single ('/' :: s) rest _ ⟨rfl, rfl, rfl⟩ hw hns]
  simp [ScanState.init]

theorem scan_comment_after_text (p s : List Char) (hp : Ordinary p) (hs : '\n' ∉ s)
    (hstar : '*' ∉ s) :
    scan (p ++ '/' :: '/' :: (s ++ ['\n'])) = [⟨String.mk (p ++ '/' :: '/' :: s), .COMMENT⟩] := by
  rw [scan_eq_flush, scanRun_comment_body p s ['\n'] hp hs hstar (by simp), scanRun_cons,
    scanStep_single_end _ _ ⟨rfl, rfl, rfl⟩]
  simp [scanRun_nil, ScanState.flush, ScanState.init]

theorem scan_comment_at_end (s : List Char) (hs : '\n' ∉ s) (hstar : '*' ∉ s) :
    scan ('/' :: '/' :: s) = [⟨String.mk ('/' :: '/' :: s), .UNKNOWN⟩] := by
  have h := scanRun_comment_body [] s [] ordinary_nil hs hstar (by simp)
  simp only [List.nil_append, List.append_nil] at h
  rw [scan_eq_flush, h, scanRun_nil]
  simp [ScanState.flush, ScanState.emit, ScanState.init]

theorem takeWhile_nonspace (w rest : List Char) (s : Char)
    (hw : ∀ c ∈ w, isspace c = false) (hs : isspace s = true) :
    (w ++ s :: rest).takeWhile (fun d => !isspace d) = w ∧
      (w ++ s :: rest).dropWhile (fun d => !isspace d) = s :: rest := by
  induction w with
  | nil => simp [List.takeWhile, List.dropWhile, hs]
  | cons c cs ih =>
    have hc := hw c (by simp)
    have ih2 := ih (fun d hd => hw d (by simp [hd]))
    simp [List.takeWhile, List.dropWhile, hc, ih2.1, ih2.2]

/-- The scanner on `#`, non-whitespace text, one whitespace character and any
further text: the directive, then the tokens of the further text. -/
theorem scan_directive (w rest : List Char) (s : Char) (hw : ∀ c ∈ w, isspace c = false)
    (hs : isspace s = true) :
    scan ('#' :: (w ++ s :: rest)) =
      ⟨String.mk ('#' :: w), .PREPROCESSOR_DIRECTIVE⟩ :: scan rest := by
  obtain ⟨ht, hd⟩ := takeWhile_nonspace w rest s hw hs
  rw [scan_eq_flush, scanRun_cons, scanStep_directive _ _ ⟨rfl, rfl, rfl⟩, ht, hd]
  dsimp only
  rw [scanRun_cons, scanStep_space _ s rest ⟨rfl, rfl, rfl⟩ hs]
  dsimp only
  have hst : ({ ScanState.init with
      tokens := ScanState.init.tokens ++
        [⟨String.mk (ScanState.init.token ++ '#' :: w), .PREPROCESSOR_DIRECTIVE⟩],
      token := [] } : ScanState).flush =
      ScanState.init.prepend [⟨String.mk ('#' :: w), .PREPROCESSOR_DIRECTIVE⟩] := rfl
  rw [hst, scanRun_prepend, flush_prepend, scan_eq_flush]
  rfl

/-! ## The loop invariant while the comment flags stay exclusive -/

theorem TokensOk.append {ts : List Token} (h : TokensOk ts) (t : Token)
    (h1 : t.value.data ≠ [])
    (h2 : (t.type = .COMMENT ∨ t.type = .PREPROCESSOR_DIRECTIVE) → classify t = some t) :
    TokensOk (ts ++ [t]) := by
  intro u hu
  simp only [List.mem_append, List.mem_singleton] at hu
  rcases hu with hu | rfl
  · exact h u hu
  · exact ⟨h1, h2⟩

theorem flush_token (st : ScanState) : st.flush.token = [] := by
  unfold ScanState.flush
  split
  · rename_i h
    simpa using h
  · rfl

theorem flush_flags (st : ScanState) :
    st.flush.inString = st.inString ∧
      st.flush.inSingleLineComment = st.inSingleLineComment ∧
      st.flush.inMultiLineComment = st.inMultiLineComment := by
  unfold ScanState.flush
  split <;> simp [ScanState.emit]

theorem flush_tokens_ok (st : ScanState) (h : TokensOk st.tokens) : TokensOk st.flush.tokens := by
  unfold ScanState.flush
  split
  · exact h
  · rename_i hne
    refine h.append _ ?_ ?_
    · simpa using hne
    · simp

/-- The branch of lines 131-158 keeps the invariant. -/
theorem plainChar_inv (st : ScanState) (c : Char) (rest0 rest : List Char)
    (hinv : ScanInv st rest0) (h2 : st.inSingleLineComment = false)
    (h3 : st.inMultiLineComment = false) : ScanInv (plainChar st c) rest := by
  obtain ⟨f1, f2, f3⟩ := flush_flags st
  have hft := flush_token st
  have hfo := flush_tokens_ok st hinv.tokens_ok
  unfold plainChar
  by_cases hq : c = '"'
  · subst hq
    by_cases hs : st.inString = true
    · simp only [beq_self_eq_true, if_true, hs]
      refine ⟨?_, ?_, ?_, ?_, ?_⟩
      · exact hinv.tokens_ok.append _ (by simp) (by simp)
      · simp [ScanState.emit]
      · intro _; exact ordinary_nil
      · rintro ⟨-, h, -⟩
        simp [ScanState.emit, h2] at h
      · rintro ⟨-, -, h⟩
        simp [ScanState.emit, h3] at h
    · simp only [beq_self_eq_true, if_true, hs, Bool.false_eq_true, if_false]
      refine ⟨hfo, ?_, ?_, ?_, ?_⟩
      · intro _
        exact ⟨f2.trans h2, f3.trans h3⟩
      · rintro ⟨h, -, -⟩
        simp at h
      · rintro ⟨h, -, -⟩
        simp at h
      · rintro ⟨h, -, -⟩
        simp at h
  · have hq' : (c == '"') = false := by simpa using hq
    simp only [hq', Bool.false_eq_true, if_false]
    by_cases hs : st.inString = true
    · simp only [hs, if_true]
      refine ⟨hinv.tokens_ok, ?_, ?_, ?_, ?_⟩
      · intro _; exact ⟨h2, h3⟩
      · rintro ⟨h, -, -⟩
        simp [hs] at h
      · rintro ⟨h, -, -⟩
        simp [hs] at h
      · rintro ⟨h, -, -⟩
        simp [hs] at h
    · have hs' : st.inString = false := by simpa using hs
      have hord := hinv.normal_tok ⟨hs', h2, h3⟩
      simp only [hs, Bool.false_eq_true, if_false]
      by_cases hsp : isspace c = true
      · simp only [hsp, if_true]
        refine ⟨hfo, ?_, ?_, ?_, ?_⟩
        · intro h; rw [f1, hs'] at h; exact absurd h (by simp)
        · intro _; rw [hft]; exact ordinary_nil
        · rintro ⟨-, h, -⟩; rw [f2, h2] at h; exact absurd h (by simp)
        · rintro ⟨-, -, h⟩; rw [f3, h3] at h; exact absurd h (by simp)
      · have hsp' : isspace c = false := by simpa using hsp
        simp only [hsp, Bool.false_eq_true, if_false]
        by_cases hpu : ispunct c = true
        · simp only [hpu, if_true]
          refine ⟨hfo.append _ (by simp) (by simp), ?_, ?_, ?_, ?_⟩
          · intro h; rw [f1, hs'] at h; exact absurd h (by simp)
          · intro _; rw [hft]; exact ordinary_nil
          · rintro ⟨-, h, -⟩; rw [f2, h2] at h; exact absurd h (by simp)
          · rintro ⟨-, -, h⟩; rw [f3, h3] at h; exact absurd h (by simp)
        · have hpu' : ispunct c = false := by simpa using hpu
          simp only [hpu, Bool.false_eq_true, if_false]
          refine ⟨hinv.tokens_ok, ?_, ?_, ?_, ?_⟩
          · intro _; exact ⟨h2, h3⟩
          · intro _; exact ordinary_append _ hord c hsp' hpu'
          · rintro ⟨-, h, -⟩; rw [h2] at h; exact absurd h (by simp)
          · rintro ⟨-, -, h⟩; rw [h3] at h; exact absurd h (by simp)

theorem mode_cases (st : ScanState) (rest : List Char) (hinv : ScanInv st rest)
    (hx : flagsExclusive st = true) :
    st.Normal ∨ st.InString ∨ st.InSingle ∨ st.InMulti := by
  have hse := hinv.string_excl
  unfold flagsExclusive at hx
  unfold ScanState.Normal ScanState.InString ScanState.InSingle ScanState.InMulti
  cases h1 : st.inString <;> cases h2 : st.inSingleLineComment <;>
    cases h3 : st.inMultiLineComment <;> simp_all

/-- One iteration keeps the invariant as long as it does not set both comment
flags. -/
theorem scanStep_inv (st : ScanState) (c : Char) (rest : List Char)
    (hinv : ScanInv st (c :: rest)) (hx : flagsExclusive st = true)
    (hx2 : flagsExclusive (scanStep st c rest).1 = true) :
    ScanInv (scanStep st c rest).1 (scanStep st c rest).2 := by
  rcases mode_cases st _ hinv hx with hn | hs | hs | hm
  · -- outside strings and comments
    have hord := hinv.normal_tok hn
    by_cases hc : c = '#'
    · subst hc
      rw [scanStep_directive st rest hn]
      obtain ⟨h1, h2, h3⟩ := hn
      refine ⟨?_, ?_, ?_, ?_, ?_⟩
      · exact hinv.tokens_ok.append _ (by simp)
          (fun _ => classify_directive_shape _ st.token _ rfl hord rfl)
      · intro h; exact absurd (h1 ▸ h) (by simp)
      · intro _; exact ordinary_nil
      · rintro ⟨-, h, -⟩; exact absurd (h2 ▸ h) (by simp)
      · rintro ⟨-, -, h⟩; exact absurd (h3 ▸ h) (by simp)
    · by_cases hsl : c = '/' ∧ (rest.head? = some '/' ∨ rest.head? = some '*')
      · obtain ⟨rfl, hr⟩ := hsl
        obtain ⟨h1, h2, h3⟩ := hn
        cases rest with
        | nil => simp at hr
        | cons n r =>
          simp only [List.head?_cons, Option.some.injEq] at hr
          rcases hr with rfl | rfl
          · rw [scanStep_single_open st r ⟨h1, h2, h3⟩]
            refine ⟨hinv.tokens_ok, ?_, ?_, ?_, ?_⟩
            · intro h; exact absurd (h1 ▸ h) (by simp)
            · rintro ⟨-, h, -⟩; simp at h
            · intro _; exact ⟨st.token, hord, Or.inl ⟨rfl, rfl⟩⟩
            · rintro ⟨-, h, -⟩; simp at h
          · rw [scanStep_multi_open st r ⟨h1, h2, h3⟩]
            refine ⟨hinv.tokens_ok, ?_, ?_, ?_, ?_⟩
            · intro h; exact absurd (h1 ▸ h) (by simp)
            · rintro ⟨-, -, h⟩; simp at h
            · rintro ⟨-, h, -⟩; simp [h2] at h
            · intro _; exact ⟨st.token, [], hord, rfl⟩
      · rw [scanStep_normal_plain st c rest hn hc hsl]
        exact plainChar_inv st c _ rest hinv hn.2.1 hn.2.2
  · -- inside a string
    rw [scanStep_string_plain st c rest hs]
    exact plainChar_inv st c _ rest hinv hs.2.1 hs.2.2
  · -- inside a single-line comment
    obtain ⟨p, hp, htok⟩ := hinv.single_tok hs
    by_cases hc : c = '\n'
    · subst hc
      rw [scanStep_single_end st rest hs]
      obtain ⟨h1, h2, h3⟩ := hs
      rcases htok with ⟨-, hh⟩ | ⟨s, htok⟩
      · simp at hh
      · refine ⟨?_, ?_, ?_, ?_, ?_⟩
        · exact hinv.tokens_ok.append _ (by simp [htok])
            (fun _ => classify_comment_shape _ p ('/' :: s) htok hp (by simp) (by simp))
        · intro h; exact absurd (h1 ▸ h) (by simp)
        · intro _; exact ordinary_nil
        · rintro ⟨-, h, -⟩; simp at h
        · rintro ⟨-, -, h⟩; exact absurd (h3 ▸ h) (by simp)
    · by_cases hss : c = '/' ∧ rest.head? = some '*'
      · obtain ⟨rfl, hr⟩ := hss
        cases rest with
        | nil => simp at hr
        | cons n r =>
          simp only [List.head?_cons, Option.some.injEq] at hr
          subst hr
          rw [scanStep_single_slash_star st r hs] at hx2
          exact absurd hx2 (by simp)
      · rw [scanStep_single_char st c rest hs hc hss]
        obtain ⟨h1, h2, h3⟩ := hs
        refine ⟨hinv.tokens_ok, ?_, ?_, ?_, ?_⟩
        · intro h; exact absurd (h1 ▸ h) (by simp)
        · rintro ⟨-, h, -⟩; exact absurd (h2 ▸ h) (by simp)
        · intro _
          refine ⟨p, hp, Or.inr ?_⟩
          rcases htok with ⟨htok, hh⟩ | ⟨s, htok⟩
          · simp only [List.head?_cons, Option.some.injEq] at hh
            subst hh
            exact ⟨[], by simp [htok]⟩
          · exact ⟨s ++ [c], by simp [htok]⟩
        · rintro ⟨-, -, h⟩; exact absurd (h3 ▸ h) (by simp)
  · -- inside a multi-line comment
    obtain ⟨p, q, hp, htok⟩ := hinv.multi_tok hm
    by_cases hcl : c = '*' ∧ rest.head? = some '/'
    · obtain ⟨rfl, hr⟩ := hcl
      cases rest with
      | nil => simp at hr
      | cons n r =>
        simp only [List.head?_cons, Option.some.injEq] at hr
        subst hr
        rw [scanStep_multi_close st r hm]
        obtain ⟨h1, h2, h3⟩ := hm
        refine ⟨?_, ?_, ?_, ?_, ?_⟩
        · refine hinv.tokens_ok.append _ (by simp) (fun _ => ?_)
          refine classify_comment_shape _ p (q ++ ['*', '/']) (by simp [htok]) hp (by simp) ?_
          intro h
          have := congrArg List.length h
          simp at this
        · intro h; exact absurd (h1 ▸ h) (by simp)
        · intro _; exact ordinary_nil
        · rintro ⟨-, h, -⟩; exact absurd (h2 ▸ h) (by simp)
        · rintro ⟨-, -, h⟩; simp at h
    · rw [scanStep_multi_char st c rest hm hcl]
      obtain ⟨h1, h2, h3⟩ := hm
      refine ⟨hinv.tokens_ok, ?_, ?_, ?_, ?_⟩
      · intro h; exact absurd (h1 ▸ h) (by simp)
      · rintro ⟨-, -, h⟩; exact absurd (h3 ▸ h) (by simp)
      · rintro ⟨-, h, -⟩; exact absurd (h2 ▸ h) (by simp)
      · intro _; exact ⟨p, q ++ [c], hp, by simp [htok]⟩

theorem scanExclusive_head (fuel : Nat) (st : ScanState) (rest : List Char)
    (h : scanExclusive fuel st rest = true) : flagsExclusive st = true := by
  cases fuel with
  | zero => exact h
  | succ n =>
    cases rest with
    | nil => exact h
    | cons c cs =>
      simp only [scanExclusive, Bool.and_eq_true] at h
      exact h.1

theorem scanLoop_inv (fuel : Nat) (st : ScanState) (rest : List Char)
    (hinv : ScanInv st rest) (hx : scanExclusive fuel st rest = true) :
    TokensOk (scanLoop fuel st rest).tokens := by
  induction fuel generalizing st rest with
  | zero => exact hinv.tokens_ok
  | succ n ih =>
    cases rest with
    | nil => exact hinv.tokens_ok
    | cons c cs =>
      simp only [scanExclusive, Bool.and_eq_true] at hx
      simp only [scanLoop]
      exact ih _ _ (scanStep_inv st c cs hinv hx.1 (scanExclusive_head _ _ _ hx.2)) hx.2

theorem scanInv_init (code : List Char) : ScanInv ScanState.init code := by
  refine ⟨?_, ?_, ?_, ?_, ?_⟩
  · intro t ht
    simp [ScanState.init] at ht
  · intro h
    simp [ScanState.init] at h
  · intro _
    exact ordinary_nil
  · rintro ⟨-, h, -⟩
    simp [ScanState.init] at h
  · rintro ⟨-, -, h⟩
    simp [ScanState.init] at h

theorem scan_tokens_ok (code : List Char)
    (hx : scanExclusive code.length ScanState.init code = true) : TokensOk (scan code) :=
  flush_tokens_ok _ (scanLoop_inv _ _ _ (scanInv_init code) hx)

/-! ## The string flag excludes the comment flags -/

theorem flush_stringAlone (st : ScanState) (h : StringAlone st) : StringAlone st.flush := by
  obtain ⟨f1, f2, f3⟩ := flush_flags st
  intro hs
  rw [f2, f3]
  exact h (f1 ▸ hs)

theorem scanStep_stringAlone (st : ScanState) (c : Char) (rest : List Char)
    (h : StringAlone st) : StringAlone (scanStep st c rest).1 := by
  by_cases hs : st.inString = true
  · obtain ⟨h2, h3⟩ := h hs
    rw [scanStep_string_plain st c rest ⟨hs, h2, h3⟩]
    unfold plainChar
    simp only [hs, if_true]
    split
    · intro hh
      simp [ScanState.emit] at hh
    · intro _
      exact ⟨h2, h3⟩
  · have hs' : st.inString = false := by simpa using hs
    unfold scanStep
    split
    · intro hh
      simp [ScanState.emit, hs'] at hh
    · dsimp only
      have hcs : (commentStart st c rest).inString = false := by
        unfold commentStart
        split
        · cases rest with
          | nil => exact hs'
          | cons n r =>
            dsimp only
            split
            · exact hs'
            · split <;> exact hs'
        · exact hs'
      have hse : (singleLineEnd (commentStart st c rest) c).inString = false := by
        unfold singleLineEnd
        split
        · exact hcs
        · exact hcs
      generalize singleLineEnd (commentStart st c rest) c = st2 at hse
      split
      · intro hh
        simp [ScanState.emit, hse] at hh
      · split
        · intro hh
          simp [hse] at hh
        · rename_i hfl
          simp only [Bool.or_eq_true, not_or, Bool.not_eq_true] at hfl
          unfold plainChar
          simp only [hse, Bool.false_eq_true, if_false]
          split
          · intro _
            have := flush_flags st2
            exact ⟨this.2.1.trans hfl.1, this.2.2.trans hfl.2⟩
          · split
            · exact flush_stringAlone st2 (fun hh => by simp [hse] at hh)
            · split
              · intro hh
                have := (flush_flags st2).1
                simp [this, hse] at hh
              · intro hh
                simp [hse] at hh

/-- At the start of every iteration the string flag is not set together with a
comment flag, and all three flags are clear when the scan starts. -/
theorem string_flag_alone (code : String) (n : Nat) :
    StringAlone (scanLoop n ScanState.init code.data) ∧
      ScanState.init.inString = false ∧ ScanState.init.inSingleLineComment = false ∧
      ScanState.init.inMultiLineComment = false := by
  refine ⟨?_, rfl, rfl, rfl⟩
  have key : ∀ (k : Nat) (st : ScanState) (rest : List Char), StringAlone st →
      StringAlone (scanLoop k st rest) := by
    intro k
    induction k with
    | zero => intro st rest h; exact h
    | succ m ih =>
      intro st rest h
      cases rest with
      | nil => exact h
      | cons c cs => exact ih _ _ (scanStep_stringAlone st c cs h)
  exact key n _ _ (fun hh => by simp [ScanState.init] at hh)

/-! ## Inputs without quote, hash and slash -/

theorem punctAlone_ordinary (w : List Char) (ty : TokenType) (hne : w ≠ [])
    (hw : Ordinary w) : PunctAlone ⟨String.mk w, ty⟩ := by
  refine ⟨hne, ?_⟩
  rintro ⟨c, hc, hp⟩
  have := (hw c hc).2
  rw [hp] at this
  exact absurd this (by simp)

theorem flush_punctAlone (st : ScanState) (hord : Ordinary st.token)
    (h : ∀ t ∈ st.tokens, PunctAlone t) : ∀ t ∈ st.flush.tokens, PunctAlone t := by
  unfold ScanState.flush
  split
  · exact h
  · rename_i hne
    intro t ht
    simp only [ScanState.emit, List.mem_append, List.mem_singleton] at ht
    rcases ht with ht | rfl
    · exact h t ht
    · exact punctAlone_ordinary _ _ (by simpa using hne) hord

/-- Outside strings and comments, a character other than `"`, `#` and `/` keeps
the scanner outside strings and comments, the pending lexeme ordinary, and
every emitted token either free of punctuation or one character long. -/
theorem scanStep_punctAlone (st : ScanState) (c : Char) (rest : List Char) (hn : st.Normal)
    (hord : Ordinary st.token) (h : ∀ t ∈ st.tokens, PunctAlone t)
    (h1 : c ≠ '"') (h2 : c ≠ '#') (h3 : c ≠ '/') :
    (scanStep st c rest).2 = rest ∧ (scanStep st c rest).1.Normal ∧
      Ordinary (scanStep st c rest).1.token ∧
      ∀ t ∈ (scanStep st c rest).1.tokens, PunctAlone t := by
  rw [scanStep_normal_plain st c rest hn h2 (fun hh => h3 hh.1)]
  obtain ⟨f1, f2, f3⟩ := flush_flags st
  have hq : (c == '"') = false := by rw [beq_eq_false_iff_ne]; exact h1
  obtain ⟨n1, n2, n3⟩ := hn
  unfold plainChar
  simp only [hq, n1, Bool.false_eq_true, if_false]
  by_cases hsp : isspace c = true
  · simp only [hsp, if_true]
    refine ⟨trivial, ⟨f1.trans n1, f2.trans n2, f3.trans n3⟩, ?_, flush_punctAlone st hord h⟩
    rw [flush_token]
    exact ordinary_nil
  · have hsp' : isspace c = false := by simpa using hsp
    simp only [hsp, Bool.false_eq_true, if_false]
    by_cases hpu : ispunct c = true
    · simp only [hpu, if_true]
      refine ⟨trivial, ⟨f1.trans n1, f2.trans n2, f3.trans n3⟩, ?_, ?_⟩
      · show Ordinary st.flush.token
        rw [flush_token]
        exact ordinary_nil
      · intro t ht
        simp only [List.mem_append, List.mem_singleton] at ht
        rcases ht with ht | rfl
        · exact flush_punctAlone st hord h t ht
        · exact ⟨by simp, fun _ => rfl⟩
    · have hpu' : ispunct c = false := by simpa using hpu
      simp only [hpu, Bool.false_eq_true, if_false]
      exact ⟨trivial, ⟨rfl, n2, n3⟩, ordinary_append _ hord c hsp' hpu', h⟩

theorem scanRun_punctAlone (rest : List Char) (st : ScanState) (hn : st.Normal)
    (hord : Ordinary st.token) (h : ∀ t ∈ st.tokens, PunctAlone t)
    (h1 : '"' ∉ rest) (h2 : '#' ∉ rest) (h3 : '/' ∉ rest) :
    ∀ t ∈ (scanRun st rest).flush.tokens, PunctAlone t := by
  induction rest generalizing st with
  | nil => exact flush_punctAlone st hord h
  | cons c cs ih =>
    simp only [List.mem_cons, not_or] at h1 h2 h3
    obtain ⟨e, hn', hord', h'⟩ :=
      scanStep_punctAlone st c cs hn hord h (Ne.symm h1.1) (Ne.symm h2.1) (Ne.symm h3.1)
    rw [scanRun_cons, e]
    exact ih _ hn' hord' h' h1.2 h2.2 h3.2

/-! ## The scanner accounts for every character -/

theorem splitsTo_nil_iff (gap : Char → Bool) (x : List Char) (vals : List String) :
    SplitsTo gap x vals [] ↔ SplitsWith gap x vals := by
  induction vals generalizing x with
  | nil =>
    simp only [SplitsTo, SplitsWith, List.append_nil]
    constructor
    · rintro ⟨g, rfl, hg⟩
      exact hg
    · intro h
      exact ⟨x, rfl, h⟩
  | cons v vs ih =>
    simp only [SplitsTo, SplitsWith, ih]

theorem splitsTo_refl (gap : Char → Bool) (x : List Char) : SplitsTo gap x [] x :=
  ⟨[], rfl, by simp⟩

theorem splitsTo_gap_left (gap : Char → Bool) (g x y : List Char) (vals : List String)
    (hg : ∀ c ∈ g, gap c = true) (h : SplitsTo gap x vals y) : SplitsTo gap (g ++ x) vals y := by
  cases vals with
  | nil =>
    obtain ⟨g2, rfl, hg2⟩ := h
    refine ⟨g ++ g2, by simp, ?_⟩
    intro c hc
    simp only [List.mem_append] at hc
    rcases hc with hc | hc
    · exact hg c hc
    · exact hg2 c hc
  | cons v vs =>
    obtain ⟨g2, r, rfl, hg2, hr⟩ := h
    refine ⟨g ++ g2, r, by simp, ?_, hr⟩
    intro c hc
    simp only [List.mem_append] at hc
    rcases hc with hc | hc
    · exact hg c hc
    · exact hg2 c hc

theorem splitsTo_trans (gap : Char → Bool) (x y z : List Char) (v1 v2 : List String)
    (h1 : SplitsTo gap x v1 y) (h2 : SplitsTo gap y v2 z) : SplitsTo gap x (v1 ++ v2) z := by
  induction v1 generalizing x with
  | nil =>
    obtain ⟨g, rfl, hg⟩ := h1
    exact splitsTo_gap_left gap g y z v2 hg h2
  | cons v vs ih =>
    obtain ⟨g, r, rfl, hg, hr⟩ := h1
    exact ⟨g, r, rfl, hg, ih r hr⟩

theorem splitsTo_value (gap : Char → Bool) (v y : List Char) :
    SplitsTo gap (v ++ y) [String.mk v] y :=
  ⟨[], y, rfl, by simp, splitsTo_refl gap y⟩

theorem splitsTo_drop (gap : Char → Bool) (c : Char) (y : List Char) (hc : gap c = true) :
    SplitsTo gap (c :: y) [] y :=
  ⟨[c], rfl, by simpa using hc⟩

/-- The flush of the pending lexeme accounts for all of it. -/
theorem flush_splits (gap : Char → Bool) (st : ScanState) (y : List Char) :
    ∃ em, st.flush.tokens = st.tokens ++ em ∧
      SplitsTo gap (st.token ++ y) (em.map Token.value) y := by
  unfold ScanState.flush
  split
  · rename_i h
    have h2 : st.token = [] := by simpa using h
    exact ⟨[], by simp, by simpa [h2] using splitsTo_refl gap y⟩
  · exact ⟨[⟨String.mk st.token, .UNKNOWN⟩], rfl, splitsTo_value gap st.token y⟩

theorem commentStart_fields (st : ScanState) (c : Char) (rest : List Char) :
    (commentStart st c rest).tokens = st.tokens ∧ (commentStart st c rest).token = st.token := by
  unfold commentStart
  split
  · cases rest with
    | nil => exact ⟨rfl, rfl⟩
    | cons n r =>
      dsimp only
      split
      · exact ⟨rfl, rfl⟩
      · split <;> exact ⟨rfl, rfl⟩
  · exact ⟨rfl, rfl⟩

theorem singleLineEnd_splits (gap : Char → Bool) (st : ScanState) (c : Char) (y : List Char) :
    ∃ em, (singleLineEnd st c).tokens = st.tokens ++ em ∧
      SplitsTo gap (st.token ++ y) (em.map Token.value) ((singleLineEnd st c).token ++ y) := by
  unfold singleLineEnd
  split
  · exact ⟨[⟨String.mk st.token, .COMMENT⟩], rfl, splitsTo_value gap st.token y⟩
  · exact ⟨[], by simp, splitsTo_refl gap _⟩

theorem append_cons_eq (t : List Char) (c : Char) (y : List Char) :
    t ++ c :: y = (t ++ [c]) ++ y := by
  simp

/-- The branch of lines 131-158 accounts for the pending lexeme and the current
character: nothing but whitespace or a quote is left out. -/
theorem plainChar_splits (st : ScanState) (c : Char) (y : List Char) :
    ∃ em, (plainChar st c).tokens = st.tokens ++ em ∧
      SplitsTo gapChar (st.token ++ c :: y) (em.map Token.value)
        ((plainChar st c).token ++ y) := by
  obtain ⟨emf, hf1, hf2⟩ := flush_splits gapChar st (c :: y)
  have hft := flush_token st
  unfold plainChar
  by_cases hq : (c == '"') = true
  · simp only [hq, if_true]
    have hgap : gapChar c = true := by simp [gapChar, hq]
    split
    · refine ⟨[⟨String.mk (st.token ++ [c]), .STRING_CONSTANT⟩], rfl, ?_⟩
      rw [append_cons_eq]
      exact splitsTo_value gapChar _ y
    · refine ⟨emf, hf1, ?_⟩
      have := splitsTo_trans gapChar _ _ _ _ _ hf2 (splitsTo_drop gapChar c y hgap)
      simpa [hft] using this
  · simp only [hq, Bool.false_eq_true, if_false]
    split
    · refine ⟨[], by simp, ?_⟩
      rw [append_cons_eq]
      exact splitsTo_refl gapChar _
    · split
      · rename_i hsp
        have hgap : gapChar c = true := by simp [gapChar, hsp]
        refine ⟨emf, hf1, ?_⟩
        have := splitsTo_trans gapChar _ _ _ _ _ hf2 (splitsTo_drop gapChar c y hgap)
        simpa [hft] using this
      · split
        · refine ⟨emf ++ [⟨String.mk [c], .UNKNOWN⟩], by simp [hf1], ?_⟩
          have := splitsTo_trans gapChar _ _ _ _ _ hf2 (splitsTo_value gapChar [c] y)
          simpa [hft] using this
        · refine ⟨[], by simp, ?_⟩
          rw [append_cons_eq]
          exact splitsTo_refl gapChar _

/-- One iteration accounts for the pending lexeme and every character it
visits: they are in the emitted values, in the new pending lexeme, or are
whitespace or a quote. -/
theorem scanStep_splits (st : ScanState) (c : Char) (rest : List Char) :
    ∃ em, (scanStep st c rest).1.tokens = st.tokens ++ em ∧
      SplitsTo gapChar (st.token ++ c :: rest) (em.map Token.value)
        ((scanStep st c rest).1.token ++ (scanStep st c rest).2) := by
  unfold scanStep
  split
  · refine ⟨[⟨String.mk (st.token ++ c :: rest.takeWhile (fun d => !isspace d)),
      .PREPROCESSOR_DIRECTIVE⟩], rfl, ?_⟩
    have hx : st.token ++ c :: rest =
        (st.token ++ c :: rest.takeWhile (fun d => !isspace d)) ++
          rest.dropWhile (fun d => !isspace d) := by
      simp [List.takeWhile_append_dropWhile]
    rw [hx]
    exact splitsTo_value gapChar _ _
  · dsimp only
    obtain ⟨hc1, hc2⟩ := commentStart_fields st c rest
    obtain ⟨em1, he1, hs1⟩ :=
      singleLineEnd_splits gapChar (commentStart st c rest) c (c :: rest)
    rw [hc1] at he1
    rw [hc2] at hs1
    generalize singleLineEnd (commentStart st c rest) c = st2 at he1 hs1
    split
    · rename_i hcl
      simp only [Bool.and_eq_true, beq_iff_eq] at hcl
      obtain ⟨⟨-, hstar⟩, hhead⟩ := hcl
      cases rest with
      | nil => simp at hhead
      | cons n r =>
        simp only [List.head?_cons, Option.some.injEq] at hhead
        subst hhead hstar
        refine ⟨em1 ++ [⟨String.mk (st2.token ++ ['*', '/']), .COMMENT⟩],
          by simp [ScanState.emit, he1], ?_⟩
        have h2 : SplitsTo gapChar (st2.token ++ '*' :: '/' :: r)
            [String.mk (st2.token ++ ['*', '/'])] r := by
          have := splitsTo_value gapChar (st2.token ++ ['*', '/']) r
          simpa using this
        have := splitsTo_trans gapChar _ _ _ _ _ hs1 h2
        simpa [ScanState.emit] using this
    · split
      · refine ⟨em1, he1, ?_⟩
        have : st2.token ++ c :: rest = (st2.token ++ [c]) ++ rest := by simp
        rw [this] at hs1
        exact hs1
      · obtain ⟨em2, he2, hs2⟩ := plainChar_splits st2 c rest
        refine ⟨em1 ++ em2, by rw [he2, he1, List.append_assoc], ?_⟩
        have := splitsTo_trans gapChar _ _ _ _ _ hs1 hs2
        simpa using this

theorem scanRun_splits (n : Nat) (rest : List Char) (hn : rest.length ≤ n) (st : ScanState) :
    ∃ em, (scanRun st rest).flush.tokens = st.tokens ++ em ∧
      SplitsTo gapChar (st.token ++ rest) (em.map Token.value) [] := by
  induction n generalizing rest st with
  | zero =>
    have hr : rest = [] := List.length_eq_zero.1 (Nat.le_zero.1 hn)
    subst hr
    rw [scanRun_nil]
    exact flush_splits gapChar st []
  | succ k ih =>
    cases rest with
    | nil =>
      rw [scanRun_nil]
      exact flush_splits gapChar st []
    | cons c cs =>
      obtain ⟨em1, he1, hs1⟩ := scanStep_splits st c cs
      have hlen : (scanStep st c cs).2.length ≤ k := by
        have := scanStep_length st c cs
        simp only [List.length_cons] at hn
        omega
      obtain ⟨em2, he2, hs2⟩ := ih _ hlen (scanStep st c cs).1
      rw [scanRun_cons]
      refine ⟨em1 ++ em2, by rw [he2, he1, List.append_assoc], ?_⟩
      have := splitsTo_trans gapChar _ _ _ _ _ hs1 hs2
      simpa using this

/-! ## Well-formed comments and strings, and inputs that keep the comment flags exclusive -/

/-- Single-line comments: when `s` has no newline and no `/` of `/` followed by
`s` is directly followed by `*`, `tokenize` returns the single `COMMENT` token
`//` followed by `s`, the newline excluded. -/
theorem tokenize_single_line (s : String) (hs : '\n' ∉ s.data)
    (hn : noSlashStar ('/' :: s.data) = true) :
    tokenize ("//" ++ s ++ "\n") = some [⟨"//" ++ s, .COMMENT⟩] := by
  have h := scan_single_line s.data hs hn
  unfold tokenize
  rw [show ("//" ++ s ++ "\n").data = '/' :: '/' :: (s.data ++ ['\n']) from rfl, h]
  exact classifyAll_singleton _ _
    (classify_comment_shape _ [] ('/' :: s.data) rfl ordinary_nil (by simp) (by simp))

/-- Multi-line comments: when `b` does not begin with `/` and no `*` of `b` is
directly followed by `/`, `tokenize` returns the single `COMMENT` token made of
the whole input, both delimiters included. -/
theorem tokenize_multi_line (b : String) (hb : b.data.head? ≠ some '/')
    (hn : noStarSlash b.data = true) :
    tokenize ("/*" ++ b ++ "*/") = some [⟨"/*" ++ b ++ "*/", .COMMENT⟩] := by
  have h := scan_multi_line b.data hb hn
  unfold tokenize
  rw [show ("/*" ++ b ++ "*/").data = '/' :: '*' :: (b.data ++ ['*', '/']) from rfl, h]
  exact classifyAll_singleton _ _
    (classify_comment_shape _ [] ('*' :: (b.data ++ ['*', '/'])) rfl ordinary_nil (by simp)
      (by simp))

/-- Quoted text: when `s` holds no quote and does not begin with `#`,
`tokenize` of the quoted `s` is the single `STRING_CONSTANT` token whose value
is `s` and the closing quote. -/
theorem tokenize_quoted (s : String) (hs : '"' ∉ s.data) (hh : s.data.head? ≠ some '#') :
    tokenize ("\"" ++ s ++ "\"") = some [⟨s ++ "\"", .STRING_CONSTANT⟩] := by
  unfold tokenize
  rw [show ("\"" ++ s ++ "\"").data = '"' :: (s.data ++ ['"']) from rfl,
    scan_quoted s.data hs]
  exact classifyAll_singleton _ _ (classify_string_shape _ s.data rfl hs hh)

/-- Scan-time categories: on an input during whose scan the two comment flags
are never set together, every token that the scanning loop emits with category
`COMMENT` or `PREPROCESSOR_DIRECTIVE` is mapped to itself by the classification
chain. -/
theorem exclusive_categories_final (code : String)
    (hx : scanExclusive code.data.length ScanState.init code.data = true) (t : Token)
    (ht : t ∈ scan code.data)
    (hty : t.type = .COMMENT ∨ t.type = .PREPROCESSOR_DIRECTIVE) : classify t = some t :=
  (scan_tokens_ok code.data hx t ht).2 hty

/-- Definedness: on an input during whose scan the two comment flags are never
set together, every token the scanner emits has a non-empty value and
`tokenize` returns a token sequence. -/
theorem exclusive_tokenize_defined (code : String)
    (hx : scanExclusive code.data.length ScanState.init code.data = true) :
    (∀ t ∈ scan code.data, t.value.data ≠ []) ∧ ∃ out, tokenize code = some out :=
  ⟨fun t ht => (scan_tokens_ok code.data hx t ht).1,
    classifyAll_defined _ (fun t ht => (scan_tokens_ok code.data hx t ht).1)⟩

/-- The sample comment `// addition` of `main`. -/
theorem tokenize_single_line_addition :
    tokenize "// addition\n" = some [⟨"// addition", .COMMENT⟩] :=
  tokenize_single_line " addition" (by decide) (by decide)

/-- The sample comment of `main` that spans two lines. -/
theorem tokenize_multi_line_sample :
    tokenize "/*multi\nline*/" = some [⟨"/*multi\nline*/", .COMMENT⟩] :=
  tokenize_multi_line "multi\nline" (by decide) (by decide)

/-- A quoted text with `#` inside but not in front. -/
theorem tokenize_quoted_sample :
    tokenize "\"Result is #1\"" = some [⟨"Result is #1\"", .STRING_CONSTANT⟩] :=
  tokenize_quoted "Result is #1" (by decide) (by decide)

/-- The flags stay exclusive on a text with a directive, both kinds of comment
and a string; its comment token is kept by the chain and `tokenize` is defined. -/
theorem exclusive_sample :
    scanExclusive "#x \"s\" // c\n/* d */".data.length ScanState.init
        "#x \"s\" // c\n/* d */".data = true ∧
      classify ⟨"// c", .COMMENT⟩ = some ⟨"// c", .COMMENT⟩ ∧
      ∃ out, tokenize "#x \"s\" // c\n/* d */" = some out :=
  ⟨by decide,
    exclusive_categories_final "#x \"s\" // c\n/* d */" (by decide) ⟨"// c", .COMMENT⟩
      (by decide) (Or.inl rfl),
    (exclusive_tokenize_defined "#x \"s\" // c\n/* d */" (by decide)).2⟩

/-! ## The claims -/

/-- C1: `tokenize("int num1 = 42;")` returns exactly the five tokens
`("int", KEYWORD)`, `("num1", IDENTIFIER)`, `("=", OPERATOR)`,
`("42", NUMERIC_CONSTANT)`, `(";", DELIMITER)`, in that order. -/
theorem tokenize_int_num1 :
    tokenize "int num1 = 42;" =
      some [⟨"int", .KEYWORD⟩, ⟨"num1", .IDENTIFIER⟩, ⟨"=", .OPERATOR⟩,
        ⟨"42", .NUMERIC_CONSTANT⟩, ⟨";", .DELIMITER⟩] := by
  decide

/-- C2 fails on the code: on the input `"a"` (quotes included) the only token
returned has the value `a"`, and the input does not split into that value and
whitespace-only gaps, because the opening quote is in no token. -/
theorem coverage_quoted_a :
    tokenize "\"a\"" = some [⟨"a\"", .STRING_CONSTANT⟩] ∧
      ¬ SplitsWith isspace "\"a\"".data ["a\""] := by
  refine ⟨by decide, ?_⟩
  rintro ⟨g, rest, hsplit, hgap, -⟩
  cases g with
  | nil =>
    have h : ['"', 'a', '"'] = 'a' :: '"' :: rest := hsplit
    simp at h
  | cons c g =>
    have h : ['"', 'a', '"'] = c :: (g ++ ['a', '"'] ++ rest) := hsplit
    simp only [List.cons.injEq] at h
    have hc := hgap c (by simp)
    rw [← h.1] at hc
    revert hc
    decide

/-- C3 fails on the code: for the quoted input `"Hello, C#"` the single
`STRING_CONSTANT` token has the 10-character value `Hello, C#"`, without the
opening quote, not the 11-character quoted text. -/
theorem string_value_hello :
    tokenize "\"Hello, C#\"" = some [⟨"Hello, C#\"", .STRING_CONSTANT⟩] ∧
      "Hello, C#\"".length = 10 ∧ "Hello, C#\"" ≠ "\"Hello, C#\"" := by
  decide

/-- C4 fails on the code: the input `// a /* b` followed by a newline has no
newline inside the comment text, yet two tokens are returned, the comment and a
token holding the newline, because `/*` inside the single-line comment raised
the multi-line flag. -/
theorem single_line_comment_slash_star :
    tokenize "// a /* b\n" = some [⟨"// a /* b", .COMMENT⟩, ⟨"\n", .UNKNOWN⟩] := by
  decide

/-- C5 fails on the code: with `b = "/"`, which does not contain `*/`, the
input `/*/*/` gives three tokens; the `*` of the opening `/*` and the first
character of `b` already close the comment. -/
theorem multi_line_comment_slash :
    tokenize "/*/*/" = some [⟨"/*/", .COMMENT⟩, ⟨"*", .OPERATOR⟩, ⟨"/", .OPERATOR⟩] := by
  decide

/-- C6: for every input, every token in the output of `tokenize` whose value is
a member of the keyword set has category `KEYWORD`. -/
theorem keyword_precedence (code : String) (out : List Token)
    (h : tokenize code = some out) (t : Token) (ht : t ∈ out) (hk : t.value ∈ keywords) :
    t.type = .KEYWORD := by
  obtain ⟨t0, -, hc⟩ := classifyAll_mem _ out h t ht
  exact classify_keyword t0 t hc (List.elem_iff.2 hk)

/-- Witness of C6 on the input `class`. -/
theorem keyword_precedence_witness :
    tokenize "class" = some [⟨"class", .KEYWORD⟩] ∧ "class" ∈ keywords ∧
      (⟨"class", .KEYWORD⟩ : Token).type = .KEYWORD :=
  ⟨by decide, by decide,
    keyword_precedence "class" [⟨"class", .KEYWORD⟩] (by decide) ⟨"class", .KEYWORD⟩
      (by decide) (by decide)⟩

/-- C7: for every non-empty string `h` of hexadecimal digits and every prefix
`p` among `0x` and `0X`, `tokenize (p ++ h)` is the single token
`(p ++ h, HEXADECIMAL_NUMBER)`. -/
theorem hex_precedence (p h : String) (hp : p = "0x" ∨ p = "0X") (hne : h ≠ "")
    (hh : ∀ c ∈ h.data, hexClass c = true) :
    tokenize (p ++ h) = some [⟨p ++ h, .HEXADECIMAL_NUMBER⟩] := by
  have hne2 : h.data ≠ [] := fun hd => hne (String.ext hd)
  rcases hp with rfl | rfl
  · exact tokenize_hex_core 'x' h.data (by decide) hne2 hh
  · exact tokenize_hex_core 'X' h.data (by decide) hne2 hh

/-- Witness of C7 on the input `0x1A`. -/
theorem hex_precedence_witness :
    "1A" ≠ "" ∧ (∀ c ∈ "1A".data, hexClass c = true) ∧
      tokenize "0x1A" = some [⟨"0x1A", .HEXADECIMAL_NUMBER⟩] :=
  ⟨by decide, by decide, hex_precedence "0x" "1A" (Or.inl rfl) (by decide) (by decide)⟩

/-- C8: the classification chain applied to a provisional lexeme `v` yields
`DECIMAL_NUMBER` exactly when `v` is one or more digits followed by a single
trailing dot; every lexeme of the form `digits* '.' digits+` or `digits+`
yields `NUMERIC_CONSTANT`. -/
theorem numeric_decimal_boundary :
    (∀ v : String, (classify ⟨v, .UNKNOWN⟩).map Token.type = some .DECIMAL_NUMBER ↔
        IsTrailingDot v.data) ∧
      (∀ v : String, IsFraction v.data ∨ IsDigits v.data →
        classify ⟨v, .UNKNOWN⟩ = some ⟨v, .NUMERIC_CONSTANT⟩) := by
  constructor
  · intro v
    constructor
    · intro h
      unfold classify at h
      split_ifs at h with h1 h2 h3 h4 h5 h6 h7 h8 <;> try (simp at h; done)
      · have h6' := (isDecimalNumber_iff v).1 h6
        have h4' : ¬ (IsFraction v.data ∨ IsDigits v.data) :=
          fun hn => h4 ((isNumericConstant_iff v).2 hn)
        rcases h6' with hf | ht
        · exact absurd (Or.inl hf) h4'
        · exact ht
      · dsimp only at h
        split at h
        · simp at h
        · split_ifs at h <;> simp at h
    · intro ht
      obtain ⟨k1, k2, k3, k4⟩ := numberLike_rejects v (isTrailingDot_numberLike _ ht)
      have k5 : isNumericConstant v = false := by
        rw [Bool.eq_false_iff]
        intro hn
        exact isTrailingDot_not_numeric _ ht ((isNumericConstant_iff v).1 hn)
      have k6 : isDecimalNumber v = true := (isDecimalNumber_iff v).2 (Or.inr ht)
      simp only [classify, k1, k2, k3, k4, k5, k6, Bool.false_eq_true, if_false, if_true,
        Option.map_some']
  · intro v hv
    have hl : IsNumberLike v.data := by
      rcases hv with hv | hv
      · exact isFraction_numberLike _ hv
      · exact isDigits_numberLike _ hv
    obtain ⟨k1, k2, k3, -⟩ := numberLike_rejects v hl
    have k5 : isNumericConstant v = true := (isNumericConstant_iff v).2 hv
    simp only [classify, k1, k2, k3, k5, Bool.false_eq_true, if_false, if_true]

/-- Witness of C8 on the lexemes `3.`, `3.14` and `.5`. -/
theorem numeric_decimal_boundary_witness :
    classify ⟨"3.", .UNKNOWN⟩ = some ⟨"3.", .DECIMAL_NUMBER⟩ ∧
      IsTrailingDot "3.".data ∧
      classify ⟨"3.14", .UNKNOWN⟩ = some ⟨"3.14", .NUMERIC_CONSTANT⟩ ∧
      classify ⟨".5", .UNKNOWN⟩ = some ⟨".5", .NUMERIC_CONSTANT⟩ := by
  have h314 : IsFraction "3.14".data := ⟨['3'], ['1', '4'], rfl, by decide, by decide, by decide⟩
  have h5 : IsFraction ".5".data := ⟨[], ['5'], rfl, by decide, by decide, by decide⟩
  refine ⟨by decide, ?_, numeric_decimal_boundary.2 "3.14" (Or.inl h314),
    numeric_decimal_boundary.2 ".5" (Or.inl h5)⟩
  exact (numeric_decimal_boundary.1 "3.").1 (by decide)

/-- C9 fails on the code: on the input `//*/int` followed by a newline the
scanning loop emits `("int", COMMENT)`, and `tokenize` returns that token as
`("int", KEYWORD)`. -/
theorem comment_reclassified :
    scan "//*/int\n".data = [⟨"//*/", .COMMENT⟩, ⟨"int", .COMMENT⟩] ∧
      tokenize "//*/int\n" = some [⟨"//*/", .COMMENT⟩, ⟨"int", .KEYWORD⟩] := by
  decide

/-- C10 fails on the code: on the input `//*/` followed by a newline the
scanning loop emits a `COMMENT` token with an empty value, the classifier
reaches `t.value.front()` on it, and `tokenize` has no defined result. -/
theorem empty_comment_token :
    scan "//*/\n".data = [⟨"//*/", .COMMENT⟩, ⟨"", .COMMENT⟩] ∧
      classify ⟨"", .COMMENT⟩ = none ∧ tokenize "//*/\n" = none := by
  decide

/-- C11 fails on the code: the value `// x` is returned with category `COMMENT`
when a newline ends the comment and with category `UNKNOWN` when the input ends
first, so two tokens with the same value have different categories. -/
theorem same_value_two_categories :
    tokenize "// x\n" = some [⟨"// x", .COMMENT⟩] ∧
      tokenize "// x" = some [⟨"// x", .UNKNOWN⟩] ∧
      ¬ ∀ (a b : String) (outa outb : List Token) (t1 t2 : Token),
          tokenize a = some outa → tokenize b = some outb → t1 ∈ outa → t2 ∈ outb →
            t1.value = t2.value → t1.type = t2.type := by
  refine ⟨by decide, by decide, ?_⟩
  intro h
  have := h "// x\n" "// x" [⟨"// x", .COMMENT⟩] [⟨"// x", .UNKNOWN⟩] ⟨"// x", .COMMENT⟩
    ⟨"// x", .UNKNOWN⟩ (by decide) (by decide) (by simp) (by simp) rfl
  exact absurd this (by decide)

/-- C11 as amended: for any two inputs and tokens `t1` of `tokenize a`, `t2` of
`tokenize b` with the same value, the categories are equal whenever the value
matches one of the tests of the classification chain. -/
theorem classification_by_value (a b : String) (outa outb : List Token) (t1 t2 : Token)
    (ha : tokenize a = some outa) (hb : tokenize b = some outb) (h1 : t1 ∈ outa)
    (h2 : t2 ∈ outb) (hv : t1.value = t2.value) (hm : ruleMatches t1.value = true) :
    t1.type = t2.type := by
  obtain ⟨u1, -, c1⟩ := classifyAll_mem _ outa ha t1 h1
  obtain ⟨u2, -, c2⟩ := classifyAll_mem _ outb hb t2 h2
  have e1 := classify_value u1 t1 c1
  have e2 := classify_value u2 t2 c2
  obtain ⟨v1, ty1⟩ := u1
  obtain ⟨v2, ty2⟩ := u2
  simp only at e1 e2
  have hv2 : v2 = v1 := by rw [← e1, ← e2, hv]
  subst hv2
  rw [e1] at hm
  exact classify_congr v2 ty1 ty2 t1 t2 hm c1 c2

/-- Witness of the amended C11 on the inputs `int x` and `(int)`. -/
theorem classification_by_value_witness :
    tokenize "int x" = some [⟨"int", .KEYWORD⟩, ⟨"x", .IDENTIFIER⟩] ∧
      tokenize "(int)" = some [⟨"(", .DELIMITER⟩, ⟨"int", .KEYWORD⟩, ⟨")", .DELIMITER⟩] ∧
      ruleMatches "int" = true ∧
      (⟨"int", .KEYWORD⟩ : Token).type = (⟨"int", .KEYWORD⟩ : Token).type :=
  ⟨by decide, by decide, by decide,
    classification_by_value "int x" "(int)" [⟨"int", .KEYWORD⟩, ⟨"x", .IDENTIFIER⟩]
      [⟨"(", .DELIMITER⟩, ⟨"int", .KEYWORD⟩, ⟨")", .DELIMITER⟩] ⟨"int", .KEYWORD⟩
      ⟨"int", .KEYWORD⟩ (by decide) (by decide) (by decide) (by decide) rfl (by decide)⟩

/-- C12: every non-empty text of ASCII letters and digits that starts with a
digit, is not made of digits only and is not `0x`/`0X` followed by one or more
hexadecimal digits, is returned by `tokenize` as the single token
`(v, UNKNOWN)`. -/
theorem malformed_literal_unknown (v : String) (d : Char) (ds : List Char)
    (hv : v.data = d :: ds) (hd : digitClass d = true)
    (hal : ∀ c ∈ v.data, alnumClass c = true)
    (hnd : ¬ ∀ c ∈ v.data, digitClass c = true)
    (hnh : ¬ ∃ p h : String, (p = "0x" ∨ p = "0X") ∧ h ≠ "" ∧
      (∀ c ∈ h.data, hexClass c = true) ∧ v = p ++ h) :
    tokenize v = some [⟨v, .UNKNOWN⟩] := by
  have hord : ∀ c ∈ v.data, isspace c = false ∧ ispunct c = false :=
    fun c hc => ⟨(alnum_facts c (hal c hc)).1, (alnum_facts c (hal c hc)).2.1⟩
  have hdot : '.' ∉ v.data := fun h => (alnum_facts _ (hal _ h)).2.2.1 rfl
  unfold tokenize
  rw [scan_ordinary v.data (by simp [hv]) hord]
  apply classifyAll_singleton
  have k1 : isKeyword v = false := by
    rw [Bool.eq_false_iff]
    intro hk
    have := (isKeyword_data v hk).2 d (by simp [hv])
    rw [(digit_facts d hd).1] at this
    exact Bool.false_ne_true this
  have k2 : isHexadecimalNumber v = false := by
    rw [Bool.eq_false_iff]
    intro hh
    obtain ⟨x, h, hv2, hx, hne, hall⟩ := (isHexadecimalNumber_iff v).1 hh
    simp only [xClass, Bool.or_eq_true, beq_iff_eq] at hx
    apply hnh
    rcases hx with rfl | rfl
    · exact ⟨"0x", String.mk h, Or.inl rfl, fun e => hne (congrArg String.data e), hall,
        String.ext hv2⟩
    · exact ⟨"0X", String.mk h, Or.inr rfl, fun e => hne (congrArg String.data e), hall,
        String.ext hv2⟩
  have k3 : isIdentifier v = false := by
    rw [Bool.eq_false_iff]
    intro hi
    obtain ⟨e, es, hv2, he, -⟩ := (isIdentifier_iff v).1 hi
    rw [hv] at hv2
    simp only [List.cons.injEq] at hv2
    rw [← hv2.1, (digit_facts d hd).2] at he
    exact Bool.false_ne_true he
  have hfr : ¬ IsFraction v.data := by
    rintro ⟨a, b, hab, -⟩
    exact hdot (by simp [hab])
  have k4 : isNumericConstant v = false := by
    rw [Bool.eq_false_iff]
    intro hn
    rcases (isNumericConstant_iff v).1 hn with h | h
    · exact hfr h
    · exact hnd h.2
  have k5 : isStringConstant v = false := by
    rw [Bool.eq_false_iff]
    intro hs
    have := isStringConstant_head v hs
    rw [hv] at this
    simp only [List.head?_cons, Option.some.injEq] at this
    exact (alnum_facts d (hal d (by simp [hv]))).2.2.2.1 this
  have k6 : isDecimalNumber v = false := by
    rw [Bool.eq_false_iff]
    intro hn
    rcases (isDecimalNumber_iff v).1 hn with h | ⟨a, ha, -⟩
    · exact hfr h
    · exact hdot (by simp [ha])
  obtain ⟨k7, k8⟩ := not_vocabulary_of_head v d ds hv (hord d (by simp [hv])).2
  have hh : (d == '#') = false := by
    rw [beq_eq_false_iff_ne]
    exact (alnum_facts d (hal d (by simp [hv]))).2.2.2.2
  rw [classify_unmatched ⟨v, .UNKNOWN⟩ k1 k2 k3 k4 k5 k6 k7 k8 d ds hv, hh]
  rfl

/-- Witness of C12 on the input `0xG1`. -/
theorem malformed_literal_unknown_witness :
    digitClass '0' = true ∧ tokenize "0xG1" = some [⟨"0xG1", .UNKNOWN⟩] := by
  refine ⟨by decide,
    malformed_literal_unknown "0xG1" '0' ['x', 'G', '1'] rfl (by decide) (by decide)
      (by decide) ?_⟩
  rintro ⟨p, h, hp, -, hh, e⟩
  have e2 := congrArg String.data e
  rcases hp with rfl | rfl
  · have h3 : h.data = ['G', '1'] := by
      have : ['0', 'x', 'G', '1'] = '0' :: 'x' :: h.data := e2
      simp only [List.cons.injEq, true_and] at this
      exact this.symm
    have := hh 'G' (by simp [h3])
    revert this
    decide
  · have : ['0', 'x', 'G', '1'] = '0' :: 'X' :: h.data := e2
    simp only [List.cons.injEq, true_and] at this
    exact absurd this.1 (by decide)

/-- C13 fails on the code: `my_var` is returned as three tokens, because the
underscore is punctuation for `ispunct` and ends the pending lexeme. -/
theorem underscore_splits :
    ispunct '_' = true ∧
      tokenize "my_var" =
        some [⟨"my", .IDENTIFIER⟩, ⟨"_", .IDENTIFIER⟩, ⟨"var", .IDENTIFIER⟩] := by
  decide

/-- C14 fails on the code: on the input `//*x` the third iteration of the loop
starts with both `inSingleLineComment` and `inMultiLineComment` set. -/
theorem both_comment_flags_set :
    scanLoop 2 ScanState.init "//*x".data =
      { tokens := [], token := ['/', '/'], inString := false,
        inSingleLineComment := true, inMultiLineComment := true } := by
  decide

/-- C15 fails on the code: the quoted input `"#include"` is returned as one
token of category `PREPROCESSOR_DIRECTIVE`, not `STRING_CONSTANT`. -/
theorem string_reclassified :
    scan "\"#include\"".data = [⟨"#include\"", .STRING_CONSTANT⟩] ∧
      tokenize "\"#include\"" = some [⟨"#include\"", .PREPROCESSOR_DIRECTIVE⟩] := by
  decide

/-- C16: for every text `w` of non-whitespace characters, every whitespace
character `s` and every text `rest`, `tokenize` of `#`, `w`, `s` and `rest` is
the token `("#" ++ w, PREPROCESSOR_DIRECTIVE)` followed by the tokens of `rest`
(and is undefined exactly when `tokenize rest` is). -/
theorem directive_then_rest (w rest : String) (s : Char)
    (hw : ∀ c ∈ w.data, isspace c = false) (hs : isspace s = true) :
    tokenize ("#" ++ w ++ String.singleton s ++ rest) =
      (tokenize rest).map (fun out => ⟨"#" ++ w, .PREPROCESSOR_DIRECTIVE⟩ :: out) := by
  have hdata : ("#" ++ w ++ String.singleton s ++ rest).data =
      '#' :: (w.data ++ s :: rest.data) := by
    simp [String.data_append, String.singleton]
  unfold tokenize
  rw [hdata, scan_directive w.data rest.data s hw hs]
  exact classifyAll_cons_fixed _ _
    (classify_directive_shape _ [] w.data rfl ordinary_nil rfl)

/-- Witness of C16 on the input `#define"//`, a tab and `X 1`. -/
theorem directive_then_rest_witness :
    isspace '\t' = true ∧
      tokenize "#define\"//\tX 1" =
        some [⟨"#define\"//", .PREPROCESSOR_DIRECTIVE⟩, ⟨"X", .IDENTIFIER⟩,
          ⟨"1", .NUMERIC_CONSTANT⟩] :=
  ⟨by decide, directive_then_rest "define\"//" "X 1" '\t' (by decide) (by decide)⟩

/-- C17: on every input without `"`, `#` and `/`, `tokenize` returns a token
sequence in which every token whose value holds an ASCII punctuation character
has a value of length exactly 1. -/
theorem punctuation_one_per_token (code : String) (h1 : '"' ∉ code.data)
    (h2 : '#' ∉ code.data) (h3 : '/' ∉ code.data) :
    ∃ out, tokenize code = some out ∧
      ∀ t ∈ out, (∃ c ∈ t.value.data, ispunct c = true) → t.value.length = 1 := by
  have hscan : ∀ t ∈ scan code.data, PunctAlone t :=
    scanRun_punctAlone code.data ScanState.init ⟨rfl, rfl, rfl⟩ ordinary_nil
      (by intro t ht; simp [ScanState.init] at ht) h1 h2 h3
  obtain ⟨out, hout⟩ := classifyAll_defined (scan code.data) (fun t ht => (hscan t ht).1)
  refine ⟨out, hout, ?_⟩
  intro t ht hp
  obtain ⟨t0, ht0, hc⟩ := classifyAll_mem _ out hout t ht
  have hv := classify_value t0 t hc
  rw [hv] at hp ⊢
  exact (hscan t0 ht0).2 hp

/-- Witness of C17 on the input `a==b`. -/
theorem punctuation_one_per_token_witness :
    '/' ∉ "a==b".data ∧
      tokenize "a==b" =
        some [⟨"a", .IDENTIFIER⟩, ⟨"=", .OPERATOR⟩, ⟨"=", .OPERATOR⟩, ⟨"b", .IDENTIFIER⟩] ∧
      ∃ out, tokenize "a==b" = some out ∧
        ∀ t ∈ out, (∃ c ∈ t.value.data, ispunct c = true) → t.value.length = 1 :=
  ⟨by decide, by decide, punctuation_one_per_token "a==b" (by decide) (by decide) (by decide)⟩

/-- C18: for every input, the input splits as `g0 ++ v1 ++ g1 ++ ... ++ vn ++ gn`
where `v1 .. vn` are the values of the scanner's tokens in order and every gap
holds only whitespace and double quotes; the values `tokenize` returns are the
same, so this holds for its output. -/
theorem scanner_preserves_text (code : String) :
    SplitsWith gapChar code.data ((scan code.data).map Token.value) ∧
      ∀ out, tokenize code = some out →
        SplitsWith gapChar code.data (out.map Token.value) := by
  have h : SplitsWith gapChar code.data ((scan code.data).map Token.value) := by
    obtain ⟨em, he, hs⟩ := scanRun_splits code.data.length code.data (Nat.le_refl _)
      ScanState.init
    rw [scan_eq_flush, he, ← splitsTo_nil_iff]
    simpa [ScanState.init] using hs
  refine ⟨h, ?_⟩
  intro out hout
  rw [classifyAll_values _ out hout]
  exact h

/-- Witness of C18 on the input `x = "a b";`. -/
theorem scanner_preserves_text_witness :
    tokenize "x = \"a b\";" =
        some [⟨"x", .IDENTIFIER⟩, ⟨"=", .OPERATOR⟩, ⟨"a b\"", .STRING_CONSTANT⟩,
          ⟨";", .DELIMITER⟩] ∧
      SplitsWith gapChar "x = \"a b\";".data ["x", "=", "a b\"", ";"] :=
  ⟨by decide,
    (scanner_preserves_text "x = \"a b\";").2
      [⟨"x", .IDENTIFIER⟩, ⟨"=", .OPERATOR⟩, ⟨"a b\"", .STRING_CONSTANT⟩, ⟨";", .DELIMITER⟩]
      (by decide)⟩

/-- C19: for every non-empty text `p` of ASCII letters and digits and every text
`s` with neither a newline nor `*`, `tokenize` of `p`, `//`, `s` and a newline
is the single token `(p ++ "//" ++ s, COMMENT)`: the text before the comment
marker is part of the comment and yields no token of its own. -/
theorem pending_lexeme_joins_comment (p s : String) (_hne : p ≠ "")
    (hp : ∀ c ∈ p.data, alnumClass c = true) (hs : '\n' ∉ s.data) (hstar : '*' ∉ s.data) :
    tokenize (p ++ "//" ++ s ++ "\n") = some [⟨p ++ "//" ++ s, .COMMENT⟩] := by
  have hord : Ordinary p.data :=
    fun c hc => ⟨(alnum_facts c (hp c hc)).1, (alnum_facts c (hp c hc)).2.1⟩
  have hdata : (p ++ "//" ++ s ++ "\n").data = p.data ++ '/' :: '/' :: (s.data ++ ['\n']) := by
    simp [String.data_append]
  have hval : p ++ "//" ++ s = String.mk (p.data ++ '/' :: '/' :: s.data) := by
    apply String.ext
    simp [String.data_append]
  unfold tokenize
  rw [hdata, scan_comment_after_text p.data s.data hord hs hstar, hval]
  exact classifyAll_singleton _ _
    (classify_comment_shape _ p.data ('/' :: s.data) rfl hord (by simp) (by simp))

/-- Witness of C19 on the input `abc// x` followed by a newline. -/
theorem pending_lexeme_joins_comment_witness :
    "abc" ≠ "" ∧ tokenize "abc// x\n" = some [⟨"abc// x", .COMMENT⟩] :=
  ⟨by decide,
    pending_lexeme_joins_comment "abc" " x" (by decide) (by decide) (by decide) (by decide)⟩

/-- C20: for every text `s` with neither a newline nor `*`, `tokenize` of `//`
followed by `s`, with no newline before the end of the input, is the single
token `("//" ++ s, UNKNOWN)`. -/
theorem unterminated_comment_unknown (s : String) (hs : '\n' ∉ s.data)
    (hstar : '*' ∉ s.data) : tokenize ("//" ++ s) = some [⟨"//" ++ s, .UNKNOWN⟩] := by
  unfold tokenize
  rw [show ("//" ++ s).data = '/' :: '/' :: s.data from rfl,
    scan_comment_at_end s.data hs hstar]
  exact classifyAll_singleton _ _
    (classify_comment_shape _ [] ('/' :: s.data) rfl ordinary_nil (by simp) (by simp))

/-- Witness of C20 on the input `// x`. -/
theorem unterminated_comment_unknown_witness :
    '\n' ∉ " x".data ∧ tokenize "// x" = some [⟨"// x", .UNKNOWN⟩] :=
  ⟨by decide, unterminated_comment_unknown " x" (by decide) (by decide)⟩

end SysProgLab3
